import Mathlib

/-!
# Verification of the fastSF structure-function code

A shallow embedding of the computational core of `src/fastSF.cc` (the
fastSF turbulence structure-function program), together with proofs of
the specification claims about it.

Conventions of the embedding:
* C `int` values that can overflow are modelled as `ℤ` with an explicit
  wrap to the 32-bit signed window where the source performs `int`
  arithmetic (`wrap32`).
* `double` arithmetic is modelled exactly over `ℝ`.
* blitz arrays that the source fills by index are modelled as lists of
  write events `(index, value)` in program order; reading an index
  yields the value of the last write to it (`lastWrite`).
* fields are total functions `ℤ → ℤ → (ℤ →) ℝ`; the code only ever
  accesses in-grid points.
-/

namespace FastSF

/-- Reading a cell of an imperatively-filled array: the value of the
last write to that cell in the write-event list, if any. -/
def lastWrite {α β : Type} [DecidableEq α] : List (α × β) → α → Option β
  | [], _ => none
  | x :: rest, a =>
    match lastWrite rest a with
    | some v => some v
    | none => if x.1 = a then some x.2 else none

theorem lastWrite_nil {α β : Type} [DecidableEq α] (a : α) :
    lastWrite ([] : List (α × β)) a = none := rfl

theorem lastWrite_eq_none_iff {α β : Type} [DecidableEq α]
    (l : List (α × β)) (a : α) :
    lastWrite l a = none ↔ ∀ b, (a, b) ∉ l := by
  induction l with
  | nil => simp [lastWrite]
  | cons x rest ih =>
    constructor
    · intro h b hmem
      unfold lastWrite at h
      rcases hrest : lastWrite rest a with _ | v
      · rw [hrest] at h
        simp only at h
        rcases List.mem_cons.1 hmem with hx | hx
        · have : x.1 = a := by rw [← hx]
          simp [this] at h
        · exact (ih.1 hrest) b hx
      · rw [hrest] at h
        simp at h
    · intro h
      unfold lastWrite
      have hrest : lastWrite rest a = none := by
        refine ih.2 ?_
        intro b hb
        exact h b (List.mem_cons_of_mem _ hb)
      rw [hrest]
      simp only
      have hx : x.1 ≠ a := by
        intro hx
        exact h x.2 (by rw [← hx]; exact List.mem_cons_self _ _)
      simp [hx]

theorem lastWrite_mem {α β : Type} [DecidableEq α]
    {l : List (α × β)} {a : α} {v : β} (h : lastWrite l a = some v) :
    (a, v) ∈ l := by
  induction l with
  | nil => simp [lastWrite] at h
  | cons x rest ih =>
    unfold lastWrite at h
    rcases hrest : lastWrite rest a with _ | w
    · rw [hrest] at h
      simp only at h
      by_cases hx : x.1 = a
      · simp [hx] at h
        have : x = (a, v) := by
          cases x
          simp only [Prod.mk.injEq]
          exact ⟨hx, h⟩
        rw [← this]
        exact List.mem_cons_self _ _
      · simp [hx] at h
    · rw [hrest] at h
      simp only at h
      cases h
      exact List.mem_cons_of_mem _ (ih hrest)

/-- If a cell is written, and all writes to it carry the same value,
then reading the cell gives that value. -/
theorem lastWrite_eq_of_mem {α β : Type} [DecidableEq α]
    {l : List (α × β)} {a : α} {v : β}
    (hmem : (a, v) ∈ l) (huniq : ∀ w, (a, w) ∈ l → w = v) :
    lastWrite l a = some v := by
  induction l with
  | nil => simp at hmem
  | cons x rest ih =>
    unfold lastWrite
    rcases hrest : lastWrite rest a with _ | w
    · simp only
      rcases List.mem_cons.1 hmem with hx | hx
      · have hx1 : x.1 = a := by rw [← hx]
        have hx2 : x.2 = v := by rw [← hx]
        simp [hx1, hx2]
      · exact absurd hx ((lastWrite_eq_none_iff rest a).1 hrest v)
    · simp only
      have : w = v := huniq w (List.mem_cons_of_mem _ (lastWrite_mem hrest))
      rw [this]

theorem lastWrite_append_right {α β : Type} [DecidableEq α]
    {l₁ l₂ : List (α × β)} {a : α} {v : β}
    (h : lastWrite l₂ a = some v) :
    lastWrite (l₁ ++ l₂) a = some v := by
  induction l₁ with
  | nil => simpa using h
  | cons x rest ih =>
    show lastWrite (x :: (rest ++ l₂)) a = some v
    unfold lastWrite
    rw [ih]

theorem lastWrite_append_left {α β : Type} [DecidableEq α]
    {l₁ l₂ : List (α × β)} {a : α}
    (h : lastWrite l₂ a = none) :
    lastWrite (l₁ ++ l₂) a = lastWrite l₁ a := by
  induction l₁ with
  | nil => simpa using h
  | cons x rest ih =>
    show lastWrite (x :: (rest ++ l₂)) a = lastWrite (x :: rest) a
    unfold lastWrite
    rw [ih]

/-!
## Per-axis index list (`compute_index_list`, `Array<int,1>` overload)

```cpp
void compute_index_list(Array<int,1>& index_list, int Nx, int px, int rank){
    int list_size=Nx/px;
    index_list.resize(list_size);
    for (int i=0; i<list_size; i+=2){
        index_list(i)=rank+i*px;
        if (px!=Nx) {
          index_list(i+1)=Nx-1-index_list(i);
        }
    }
}
```
Here the `Nx` argument is the half-size of the axis (`H` below), `px`
the per-axis process count (`p`), `rank` the rank coordinate (`c`).
The loop is modelled as its list of write events. -/

/-- Write events performed by the 1D `compute_index_list` loop, in
program order.  The loop variable `i` runs over the even numbers below
`H / p`; each iteration writes slot `i` and, when `p ≠ H`, slot
`i + 1`. -/
def writes1D (H p c : ℕ) : List (ℕ × ℤ) :=
  ((List.range (H / p)).filter (fun i => i % 2 = 0)).flatMap (fun i =>
    (i, (c : ℤ) + (i : ℤ) * (p : ℤ)) ::
      (if p ≠ H then [(i + 1, (H : ℤ) - 1 - ((c : ℤ) + (i : ℤ) * (p : ℤ)))] else []))

/-- Reading entry `j` of the 1D index list after the fill loop. -/
def entry1D (H p c j : ℕ) : Option ℤ :=
  lastWrite (writes1D H p c) j

/-- Reading entry `j` of the 1D index list as an `int` value (an
uninitialized cell is modelled as the junk value 0; all claims read
only initialized cells). -/
def axisVal (H p c j : ℕ) : ℤ :=
  (entry1D H p c j).getD 0

theorem mem_writes1D {H p c : ℕ} {jv : ℕ × ℤ} :
    jv ∈ writes1D H p c ↔
      (jv.1 < H / p ∧ jv.1 % 2 = 0 ∧ jv.2 = (c : ℤ) + (jv.1 : ℤ) * (p : ℤ)) ∨
      (p ≠ H ∧ 1 ≤ jv.1 ∧ jv.1 - 1 < H / p ∧ (jv.1 - 1) % 2 = 0 ∧
        jv.2 = (H : ℤ) - 1 - ((c : ℤ) + ((jv.1 : ℤ) - 1) * (p : ℤ))) := by
  obtain ⟨j, v⟩ := jv
  simp only [writes1D, List.mem_flatMap, List.mem_filter, List.mem_range]
  constructor
  · rintro ⟨i, ⟨hi, hev⟩, hmem⟩
    rcases List.mem_cons.1 hmem with h | h
    · obtain ⟨h1, h2⟩ := Prod.mk.injEq .. ▸ h
      left
      refine ⟨by omega, by simp at hev; omega, ?_⟩
      simp only [h2, h1]
    · by_cases hpH : p = H
      · simp [hpH] at h
      · simp only [hpH, if_pos (by exact hpH), ne_eq, not_false_iff, if_true,
          List.mem_singleton] at h
        obtain ⟨h1, h2⟩ := Prod.mk.injEq .. ▸ h
        right
        simp at hev
        refine ⟨hpH, by omega, by omega, by omega, ?_⟩
        rw [h2]
        have : ((j : ℤ) - 1) = (i : ℤ) := by omega
        rw [this]
  · rintro (⟨hj, hev, hv⟩ | ⟨hpH, hj1, hj, hev, hv⟩)
    · exact ⟨j, ⟨hj, by simpa using hev⟩, by simp [hv]⟩
    · refine ⟨j - 1, ⟨hj, by simpa using hev⟩, ?_⟩
      refine List.mem_cons_of_mem _ ?_
      simp only [hpH, ne_eq, not_false_iff, if_true, List.mem_singleton]
      have h1 : j - 1 + 1 = j := by omega
      have h2 : ((j - 1 : ℕ) : ℤ) = (j : ℤ) - 1 := by omega
      rw [h1, h2, hv]

/-- All writes to a given slot of the 1D index list carry the same
value (even slots are written only by their own iteration, odd slots
only by the preceding one). -/
theorem writes1D_functional {H p c : ℕ} {j : ℕ} {v w : ℤ}
    (hv : (j, v) ∈ writes1D H p c) (hw : (j, w) ∈ writes1D H p c) :
    v = w := by
  rcases mem_writes1D.1 hv with ⟨hj1, hev, hv'⟩ | ⟨hpv, hj1, hj2, hev, hv'⟩ <;>
    rcases mem_writes1D.1 hw with ⟨hk1, hev', hw'⟩ | ⟨hpw, hk1, hk2, hev', hw'⟩ <;>
    simp only at hv' hw' hev hev' hj1 hk1
  · rw [hv', hw']
  · exact absurd hev' (by omega)
  · exact absurd hev' (by omega)
  · rw [hv', hw']

/-- Closed form of the even/odd entries of the 1D index list, as `ℕ`
(valid whenever `c < p ∣ H` and the slot is initialized). -/
def nclosed (H p c j : ℕ) : ℕ :=
  if j % 2 = 0 then c + j * p else (H / p - j) * p + (p - 1 - c)

theorem nclosed_even_cast {H p c j : ℕ} (hev : j % 2 = 0) :
    ((nclosed H p c j : ℕ) : ℤ) = (c : ℤ) + (j : ℤ) * (p : ℤ) := by
  simp only [nclosed, if_pos hev]
  push_cast
  ring

theorem nclosed_odd_cast {H p c j : ℕ} (hc : c < p) (hdvd : p ∣ H)
    (hj : j < H / p) (hodd : ¬ j % 2 = 0) :
    ((nclosed H p c j : ℕ) : ℤ) =
      (H : ℤ) - 1 - ((c : ℤ) + ((j : ℤ) - 1) * (p : ℤ)) := by
  simp only [nclosed, if_neg hodd]
  have hH : H = H / p * p := (Nat.div_mul_cancel hdvd).symm
  have hHm : (H : ℤ) = ((H / p : ℕ) : ℤ) * (p : ℤ) := by exact_mod_cast hH
  have h1 : ((p - 1 - c : ℕ) : ℤ) = (p : ℤ) - 1 - (c : ℤ) := by omega
  have h2 : ((H / p - j : ℕ) : ℤ) = ((H / p : ℕ) : ℤ) - (j : ℤ) := by omega
  rw [Nat.cast_add, Nat.cast_mul, h1, h2, hHm]
  ring

theorem entry1D_eq_closed {H p c j : ℕ} (hp : 0 < p) (hc : c < p)
    (hdvd : p ∣ H) (hj : j < H / p) :
    entry1D H p c j = some ((nclosed H p c j : ℕ) : ℤ) := by
  have hH : H = (H / p) * p := (Nat.div_mul_cancel hdvd).symm
  rcases Nat.even_or_odd j with hev | hodd
  · have hev2 : j % 2 = 0 := Nat.even_iff.1 hev
    refine lastWrite_eq_of_mem ?_ ?_
    · refine mem_writes1D.2 (Or.inl ⟨hj, hev2, ?_⟩)
      simp only [nclosed, hev2, if_pos rfl]
      push_cast
      ring
    · intro w hw
      rcases mem_writes1D.1 hw with ⟨_, _, hw'⟩ | ⟨_, _, _, hev', _⟩
      · simp only at hw'
        rw [hw']
        simp only [nclosed, hev2, if_pos rfl]
        push_cast
        ring
      · omega
  · have hodd2 : j % 2 = 1 := Nat.odd_iff.1 hodd
    have hpH : p ≠ H := by
      intro hpe
      have : H / p = 1 := by
        rw [hpe, Nat.div_self (hpe ▸ hp)]
      omega
    have hval : ((nclosed H p c j : ℕ) : ℤ) =
        (H : ℤ) - 1 - ((c : ℤ) + ((j : ℤ) - 1) * (p : ℤ)) :=
      nclosed_odd_cast hc hdvd hj (by omega)
    rw [hval]
    refine lastWrite_eq_of_mem ?_ ?_
    · exact mem_writes1D.2 (Or.inr ⟨hpH, by omega, by omega, by omega, rfl⟩)
    · intro w hw
      rcases mem_writes1D.1 hw with ⟨_, hev', _⟩ | ⟨_, _, _, _, hw'⟩
      · omega
      · simp only at hw'
        rw [hw']

theorem div_self_of_eq {H p : ℕ} (hp : 0 < p) (hpe : p = H) : H / p = 1 := by
  subst hpe
  exact Nat.div_self hp

/-- Block/offset decomposition of a 1D index-list entry:
entry = p * block + offset with offset < p. -/
theorem nclosed_spec {H p c j : ℕ} (hp : 0 < p) (hc : c < p) :
    nclosed H p c j =
      p * (if j % 2 = 0 then j else H / p - j) +
        (if j % 2 = 0 then c else p - 1 - c) ∧
      (if j % 2 = 0 then c else p - 1 - c) < p := by
  by_cases hev : j % 2 = 0
  · simp only [nclosed, if_pos hev]
    exact ⟨by ring, hc⟩
  · simp only [nclosed, if_neg hev]
    refine ⟨by ring, ?_⟩
    exact lt_of_le_of_lt (Nat.sub_le _ _) (Nat.sub_lt hp one_pos)

theorem nclosed_div {H p c j : ℕ} (hp : 0 < p) (hc : c < p) :
    nclosed H p c j / p = (if j % 2 = 0 then j else H / p - j) := by
  obtain ⟨h1, h2⟩ := nclosed_spec (H := H) (j := j) hp hc
  rw [h1, Nat.mul_add_div hp, Nat.div_eq_of_lt h2, Nat.add_zero]

theorem nclosed_mod {H p c j : ℕ} (hp : 0 < p) (hc : c < p) :
    nclosed H p c j % p = (if j % 2 = 0 then c else p - 1 - c) := by
  obtain ⟨h1, h2⟩ := nclosed_spec (H := H) (j := j) hp hc
  rw [h1, Nat.mul_add_mod, Nat.mod_eq_of_lt h2]

/-- Distinct (rank coordinate, position) pairs give distinct index-list
entries along one axis. -/
theorem nclosed_inj {H p c c' j j' : ℕ} (hp : 0 < p)
    (hc : c < p) (hc' : c' < p) (hj : j < H / p) (hj' : j' < H / p)
    (hm : H / p % 2 = 0 ∨ p = H)
    (heq : nclosed H p c j = nclosed H p c' j') : c = c' ∧ j = j' := by
  have hdiv : (if j % 2 = 0 then j else H / p - j) =
      (if j' % 2 = 0 then j' else H / p - j') := by
    rw [← nclosed_div (H := H) hp hc, ← nclosed_div (H := H) hp hc', heq]
  have hmod : (if j % 2 = 0 then c else p - 1 - c) =
      (if j' % 2 = 0 then c' else p - 1 - c') := by
    rw [← nclosed_mod (H := H) hp hc, ← nclosed_mod (H := H) hp hc', heq]
  have hm1 : H / p % 2 = 0 ∨ H / p = 1 := by
    rcases hm with h | h
    · exact Or.inl h
    · exact Or.inr (div_self_of_eq hp h)
  by_cases he : j % 2 = 0 <;> by_cases he' : j' % 2 = 0 <;>
    simp only [he, he', if_pos, if_neg, if_false, if_true] at hdiv hmod <;>
    omega

/-- Every value of the axis half-range `[0, H)` is some index-list
entry. -/
theorem nclosed_surj {H p : ℕ} (hp : 0 < p) (hdvd : p ∣ H)
    (hm : H / p % 2 = 0 ∨ p = H) :
    ∀ v < H, ∃ c < p, ∃ j < H / p, nclosed H p c j = v := by
  intro v hv
  have hH : H / p * p = H := Nat.div_mul_cancel hdvd
  have hb : v / p < H / p := by
    rw [Nat.div_lt_iff_lt_mul hp, hH]
    exact hv
  have hm1 : H / p % 2 = 0 ∨ H / p = 1 := by
    rcases hm with h | h
    · exact Or.inl h
    · exact Or.inr (div_self_of_eq hp h)
  by_cases hev : v / p % 2 = 0
  · refine ⟨v % p, Nat.mod_lt _ hp, v / p, hb, ?_⟩
    simp only [nclosed, if_pos hev]
    exact Nat.mod_add_div' v p
  · have hvp : v % p < p := Nat.mod_lt _ hp
    have hodd1 : Odd (v / p) := Nat.odd_iff.2 (by
      rcases Nat.mod_two_eq_zero_or_one (v / p) with h | h
      · exact absurd h hev
      · exact h)
    have hv1 : 1 ≤ v / p := by
      rcases hodd1 with ⟨k, hk⟩
      exact hk ▸ Nat.le_add_left 1 (2 * k)
    have hMev : Even (H / p) := by
      rcases hm1 with h | h
      · exact Nat.even_iff.2 h
      · exfalso
        rw [h] at hb
        exact absurd (Nat.lt_one_iff.1 hb) (by
          intro h0
          rw [h0] at hev
          exact hev rfl)
    refine ⟨p - 1 - v % p,
      lt_of_le_of_lt (Nat.sub_le _ _) (Nat.sub_lt hp one_pos),
      H / p - v / p,
      Nat.sub_lt (lt_of_le_of_lt (Nat.zero_le _) hb) hv1, ?_⟩
    have hodd2 : Odd (H / p - v / p) :=
      Nat.Even.sub_odd (le_of_lt hb) hMev hodd1
    have hodd : ¬ (H / p - v / p) % 2 = 0 := by
      rw [Nat.odd_iff.1 hodd2]
      decide
    simp only [nclosed, if_neg hodd]
    have h1 : H / p - (H / p - v / p) = v / p := Nat.sub_sub_self (le_of_lt hb)
    have h2 : p - 1 - (p - 1 - v % p) = v % p :=
      Nat.sub_sub_self (Nat.le_sub_one_of_lt hvp)
    rw [h1, h2]
    exact Nat.div_add_mod' v p

/-- Index-list entries lie inside the axis half-range. -/
theorem nclosed_lt {H p c j : ℕ} (hp : 0 < p) (hc : c < p)
    (hdvd : p ∣ H) (hj : j < H / p) : nclosed H p c j < H := by
  obtain ⟨h1, h2⟩ := nclosed_spec (H := H) (j := j) hp hc
  have hblk : (if j % 2 = 0 then j else H / p - j) ≤ H / p - 1 := by
    by_cases hev : j % 2 = 0
    · rw [if_pos hev]
      exact Nat.le_sub_one_of_lt hj
    · rw [if_neg hev]
      have hj1 : 1 ≤ j := Nat.pos_of_ne_zero (fun h0 => hev (by rw [h0]))
      exact Nat.sub_le_sub_left hj1 _
  have hH : p * (H / p) = H := Nat.mul_div_cancel' hdvd
  calc nclosed H p c j
      = p * (if j % 2 = 0 then j else H / p - j) +
          (if j % 2 = 0 then c else p - 1 - c) := h1
    _ ≤ p * (H / p - 1) + (if j % 2 = 0 then c else p - 1 - c) := by
        exact Nat.add_le_add_right (Nat.mul_le_mul_left p hblk) _
    _ < p * (H / p - 1) + p := Nat.add_lt_add_left h2 _
    _ ≤ H := by
        have hm1 : 0 < H / p := lt_of_le_of_lt (Nat.zero_le j) hj
        have hsplit : p * (H / p) = p * (H / p - 1) + p := by
          conv_lhs => rw [(Nat.succ_pred_eq_of_pos hm1).symm]
          rw [Nat.mul_succ, Nat.pred_eq_sub_one]
        exact le_of_eq (hsplit.symm.trans hH)

/-!
## Rank coordinates and the 2D displacement partitioner

```cpp
void get_rank(int rank, int py, int& rankx, int& ranky){
    ranky=rank%py;
    rankx=(rank-ranky)/py;
}

void compute_index_list(Array<int,3>& index_list, int Nx, int Ny){
    int list_size=(Nx*Ny)/(4*P);
    index_list.resize(list_size,2,P);
    int py=(P/px);
    ...
    int nx=Nx/(2*px),ny=Ny/(2*py);
    for (int rank_id=0; rank_id<P; rank_id++){
        get_rank(rank_id, py, rankx, ranky);
        compute_index_list(x, Nx/2, px, rankx);
        compute_index_list(y, Ny/2, py, ranky);
        for (int i=0; i<nx; i++){
            index_list(Range(ny*i,(i+1)*ny-1),0,rank_id)=x(i);
            index_list(Range(ny*i,(i+1)*ny-1),1,rank_id)=y(Range::all());
        }
    }
}
```
The `Range` assignments put, at table position `ix = ny*i + j`
(`j < ny`), the pair `(x(i), y(j))`; reading column `rank_id` of the
table therefore yields the list modelled by `rankDisplacements`, and
position `ix` the pair `pairAt _ _ _ _ rank_id ix`. -/

def get_ranky (rank py : ℕ) : ℕ := rank % py

def get_rankx (rank py : ℕ) : ℕ := (rank - rank % py) / py

theorem get_rankx_eq (rank py : ℕ) : get_rankx rank py = rank / py := by
  rcases Nat.eq_zero_or_pos py with h0 | hpos
  · simp [get_rankx, h0]
  · have h1 : rank - rank % py = py * (rank / py) :=
      Nat.sub_eq_of_eq_add (Nat.div_add_mod rank py).symm
    rw [get_rankx, h1, Nat.mul_div_cancel_left _ hpos]

/-- The displacement pair processed at iteration `ix` by rank `r`
(the pair `(index_list(ix,0,r), index_list(ix,1,r))`). -/
def pairAt (Nx Ny P px r ix : ℕ) : ℤ × ℤ :=
  (axisVal (Nx / 2) px (get_rankx r (P / px)) (ix / (Ny / (2 * (P / px)))),
   axisVal (Ny / 2) (P / px) (get_ranky r (P / px)) (ix % (Ny / (2 * (P / px)))))

/-- The list of displacement pairs written into rank `r`'s column of
the partition table, in fill order. -/
def rankDisplacements (Nx Ny P px r : ℕ) : List (ℤ × ℤ) :=
  (List.range (Nx / (2 * px))).flatMap (fun i =>
    (List.range (Ny / (2 * (P / px)))).map (fun j =>
      (axisVal (Nx / 2) px (get_rankx r (P / px)) i,
       axisVal (Ny / 2) (P / px) (get_ranky r (P / px)) j)))

/-- All displacement pairs across all ranks' columns. -/
def allDisplacements (Nx Ny P px : ℕ) : List (ℤ × ℤ) :=
  (List.range P).flatMap (fun r => rankDisplacements Nx Ny P px r)

/-- The pre-run decomposition constraints of §6.5 of the spec:
`p_x` divides `P`, each half-axis is divisible by its process count,
and the quotients are powers of two. -/
def DecompOK (Nx Ny P px : ℕ) : Prop :=
  0 < px ∧ px ∣ P ∧ 0 < P ∧
    px ∣ Nx / 2 ∧ (P / px) ∣ Ny / 2 ∧
    (∃ kx, Nx / 2 / px = 2 ^ kx) ∧ (∃ ky, Ny / 2 / (P / px) = 2 ^ ky)

theorem DecompOK.py_pos {Nx Ny P px : ℕ} (h : DecompOK Nx Ny P px) :
    0 < P / px :=
  Nat.div_pos (Nat.le_of_dvd h.2.2.1 h.2.1) h.1

theorem DecompOK.px_mul_py {Nx Ny P px : ℕ} (h : DecompOK Nx Ny P px) :
    px * (P / px) = P :=
  Nat.mul_div_cancel' h.2.1

/-- A power of two is even or equal to one; instantiated to the two
half-axis quotients this provides the parity facts the index-list
analysis needs. -/
theorem pow_two_even_or_one {m : ℕ} (h : ∃ k, m = 2 ^ k) :
    m % 2 = 0 ∨ m = 1 := by
  obtain ⟨k, rfl⟩ := h
  cases k with
  | zero => exact Or.inr rfl
  | succ k =>
    left
    rw [pow_succ, Nat.mul_mod_left]

theorem quotient_one_eq {H p : ℕ} (_hp : 0 < p) (hdvd : p ∣ H)
    (h1 : H / p = 1) : p = H := by
  have := Nat.div_mul_cancel hdvd
  rw [h1, Nat.one_mul] at this
  exact this

theorem DecompOK.hmx {Nx Ny P px : ℕ} (h : DecompOK Nx Ny P px) :
    Nx / 2 / px % 2 = 0 ∨ px = Nx / 2 := by
  rcases pow_two_even_or_one h.2.2.2.2.2.1 with he | h1
  · exact Or.inl he
  · exact Or.inr (quotient_one_eq h.1 h.2.2.2.1 h1)

theorem DecompOK.hmy {Nx Ny P px : ℕ} (h : DecompOK Nx Ny P px) :
    Ny / 2 / (P / px) % 2 = 0 ∨ P / px = Ny / 2 := by
  rcases pow_two_even_or_one h.2.2.2.2.2.2 with he | h1
  · exact Or.inl he
  · exact Or.inr (quotient_one_eq h.py_pos h.2.2.2.2.1 h1)

theorem nx_eq (Nx px : ℕ) : Nx / (2 * px) = Nx / 2 / px :=
  (Nat.div_div_eq_div_mul Nx 2 px).symm

/-- An initialized per-axis entry of the index list equals its closed
form. -/
theorem axisVal_eq {H p c j : ℕ} (hp : 0 < p) (hc : c < p)
    (hdvd : p ∣ H) (hj : j < H / p) :
    axisVal H p c j = ((nclosed H p c j : ℕ) : ℤ) := by
  rw [axisVal, entry1D_eq_closed hp hc hdvd hj]
  rfl

theorem rankx_lt {Nx Ny P px r : ℕ} (h : DecompOK Nx Ny P px)
    (hr : r < P) : r / (P / px) < px := by
  rw [Nat.div_lt_iff_lt_mul h.py_pos, h.px_mul_py]
  exact hr

theorem ranky_lt {Nx Ny P px : ℕ} (h : DecompOK Nx Ny P px) (r : ℕ) :
    r % (P / px) < P / px :=
  Nat.mod_lt _ h.py_pos

/-- Membership in a rank's displacement column, phrased through the
closed-form per-axis entries. -/
theorem mem_rankDisplacements_iff {Nx Ny P px r : ℕ}
    (h : DecompOK Nx Ny P px) (hr : r < P) {d : ℤ × ℤ} :
    d ∈ rankDisplacements Nx Ny P px r ↔
      ∃ i < Nx / 2 / px, ∃ j < Ny / 2 / (P / px),
        d = (((nclosed (Nx / 2) px (r / (P / px)) i : ℕ) : ℤ),
             ((nclosed (Ny / 2) (P / px) (r % (P / px)) j : ℕ) : ℤ)) := by
  have hrx := rankx_lt h hr
  have hry := ranky_lt h r
  simp only [rankDisplacements, List.mem_flatMap, List.mem_map,
    List.mem_range, nx_eq Nx px, nx_eq Ny (P / px)]
  constructor
  · rintro ⟨i, hi, j, hj, rfl⟩
    refine ⟨i, hi, j, hj, ?_⟩
    rw [get_rankx_eq, get_ranky, axisVal_eq h.1 hrx h.2.2.2.1 hi,
      axisVal_eq h.py_pos hry h.2.2.2.2.1 hj]
  · rintro ⟨i, hi, j, hj, rfl⟩
    refine ⟨i, hi, j, hj, ?_⟩
    rw [get_rankx_eq, get_ranky, axisVal_eq h.1 hrx h.2.2.2.1 hi,
      axisVal_eq h.py_pos hry h.2.2.2.2.1 hj]

/-- Each rank's displacement column is duplicate-free. -/
theorem rankDisplacements_nodup {Nx Ny P px r : ℕ}
    (h : DecompOK Nx Ny P px) (hr : r < P) :
    (rankDisplacements Nx Ny P px r).Nodup := by
  have hrx := rankx_lt h hr
  have hry := ranky_lt h r
  rw [rankDisplacements, List.nodup_flatMap]
  constructor
  · intro i _
    refine List.Nodup.map_on ?_ (List.nodup_range _)
    intro j hj j' hj' heq
    rw [List.mem_range, nx_eq Ny (P / px)] at hj hj'
    have h2 := congrArg Prod.snd heq
    simp only at h2
    rw [get_ranky, axisVal_eq h.py_pos hry h.2.2.2.2.1 hj,
      axisVal_eq h.py_pos hry h.2.2.2.2.1 hj'] at h2
    have h3 : nclosed (Ny / 2) (P / px) (r % (P / px)) j =
        nclosed (Ny / 2) (P / px) (r % (P / px)) j' := by exact_mod_cast h2
    exact (nclosed_inj h.py_pos hry hry hj hj' h.hmy h3).2
  · refine List.Pairwise.imp_of_mem ?_ (List.pairwise_lt_range _)
    intro i i' hi hi' hlt d hd hd'
    rw [List.mem_range, nx_eq Nx px] at hi hi'
    simp only [List.mem_map, List.mem_range] at hd hd'
    obtain ⟨j, hj, rfl⟩ := hd
    obtain ⟨j', hj', hfst⟩ := hd'
    have h1 := congrArg Prod.fst hfst
    simp only [get_rankx_eq] at h1
    rw [axisVal_eq h.1 hrx h.2.2.2.1 hi', axisVal_eq h.1 hrx h.2.2.2.1 hi] at h1
    have h3 : nclosed (Nx / 2) px (r / (P / px)) i' =
        nclosed (Nx / 2) px (r / (P / px)) i := by exact_mod_cast h1
    exact absurd (nclosed_inj h.1 hrx hrx hi' hi h.hmx h3).2 (by omega)

/-- No displacement pair appears in two ranks' columns, nor twice in
one column. -/
theorem allDisplacements_nodup {Nx Ny P px : ℕ} (h : DecompOK Nx Ny P px) :
    (allDisplacements Nx Ny P px).Nodup := by
  rw [allDisplacements, List.nodup_flatMap]
  refine ⟨fun r hrm => rankDisplacements_nodup h (List.mem_range.1 hrm), ?_⟩
  refine List.Pairwise.imp_of_mem ?_ (List.pairwise_lt_range _)
  intro r r' hrm hrm' hlt d hd hd'
  rw [List.mem_range] at hrm hrm'
  rw [mem_rankDisplacements_iff h hrm] at hd
  rw [mem_rankDisplacements_iff h hrm'] at hd'
  obtain ⟨i, hi, j, hj, rfl⟩ := hd
  obtain ⟨i', hi', j', hj', heq⟩ := hd'
  have h1 : nclosed (Nx / 2) px (r / (P / px)) i =
      nclosed (Nx / 2) px (r' / (P / px)) i' := by
    have h0 := congrArg Prod.fst heq
    dsimp only at h0
    exact_mod_cast h0
  have h2 : nclosed (Ny / 2) (P / px) (r % (P / px)) j =
      nclosed (Ny / 2) (P / px) (r' % (P / px)) j' := by
    have h0 := congrArg Prod.snd heq
    dsimp only at h0
    exact_mod_cast h0
  have hx := nclosed_inj h.1 (rankx_lt h hrm) (rankx_lt h hrm') hi hi' h.hmx h1
  have hy := nclosed_inj h.py_pos (ranky_lt h r) (ranky_lt h r') hj hj' h.hmy h2
  have hrr : r = r' := by
    rw [← Nat.div_add_mod r (P / px), ← Nat.div_add_mod r' (P / px), hx.1, hy.1]
  exact absurd hrr (Nat.ne_of_lt hlt)

/-- The union over ranks of displacement columns is exactly the
half-domain. -/
theorem mem_allDisplacements_iff {Nx Ny P px : ℕ} (h : DecompOK Nx Ny P px)
    (d : ℤ × ℤ) :
    d ∈ allDisplacements Nx Ny P px ↔
      0 ≤ d.1 ∧ d.1 < ((Nx / 2 : ℕ) : ℤ) ∧ 0 ≤ d.2 ∧ d.2 < ((Ny / 2 : ℕ) : ℤ) := by
  rw [allDisplacements]
  simp only [List.mem_flatMap, List.mem_range]
  constructor
  · rintro ⟨r, hr, hd⟩
    rw [mem_rankDisplacements_iff h hr] at hd
    obtain ⟨i, hi, j, hj, rfl⟩ := hd
    refine ⟨Int.natCast_nonneg _, ?_, Int.natCast_nonneg _, ?_⟩
    · show ((nclosed (Nx / 2) px (r / (P / px)) i : ℕ) : ℤ) < ((Nx / 2 : ℕ) : ℤ)
      exact_mod_cast nclosed_lt h.1 (rankx_lt h hr) h.2.2.2.1 hi
    · show ((nclosed (Ny / 2) (P / px) (r % (P / px)) j : ℕ) : ℤ) < ((Ny / 2 : ℕ) : ℤ)
      exact_mod_cast nclosed_lt h.py_pos (ranky_lt h r) h.2.2.2.2.1 hj
  · obtain ⟨d1, d2⟩ := d
    rintro ⟨h1, h2, h3, h4⟩
    obtain ⟨a, rfl⟩ : ∃ a : ℕ, d1 = (a : ℤ) :=
      ⟨d1.toNat, (Int.toNat_of_nonneg h1).symm⟩
    obtain ⟨b, rfl⟩ : ∃ b : ℕ, d2 = (b : ℤ) :=
      ⟨d2.toNat, (Int.toNat_of_nonneg h3).symm⟩
    have ha : a < Nx / 2 := by
      dsimp only at h2
      exact_mod_cast h2
    have hb : b < Ny / 2 := by
      dsimp only at h4
      exact_mod_cast h4
    obtain ⟨cx, hcx, i, hi, hni⟩ := nclosed_surj h.1 h.2.2.2.1 h.hmx a ha
    obtain ⟨cy, hcy, j, hj, hnj⟩ :=
      nclosed_surj h.py_pos h.2.2.2.2.1 h.hmy b hb
    have hrP : cy + cx * (P / px) < P := by
      have hle : cx * (P / px) ≤ (px - 1) * (P / px) :=
        Nat.mul_le_mul_right _ (Nat.le_sub_one_of_lt hcx)
      have hlt2 : cy + cx * (P / px) < (P / px) + (px - 1) * (P / px) :=
        Nat.add_lt_add_of_lt_of_le hcy hle
      have heq2 : (P / px) + (px - 1) * (P / px) = px * (P / px) := by
        rw [Nat.sub_one_mul]
        exact Nat.add_sub_cancel' (Nat.le_mul_of_pos_left _ h.1)
      rw [heq2, h.px_mul_py] at hlt2
      exact hlt2
    have hdiv : (cy + cx * (P / px)) / (P / px) = cx := by
      rw [Nat.add_mul_div_right _ _ h.py_pos, Nat.div_eq_of_lt hcy, Nat.zero_add]
    have hmod : (cy + cx * (P / px)) % (P / px) = cy := by
      rw [Nat.add_mul_mod_self_right, Nat.mod_eq_of_lt hcy]
    refine ⟨cy + cx * (P / px), hrP, ?_⟩
    rw [mem_rankDisplacements_iff h hrP]
    exact ⟨i, hi, j, hj, by rw [hdiv, hmod, hni, hnj]⟩

/-- The displacement pair a rank reads at iteration `ix`, in closed
form (all reads initialized when `ix` is within the filled table). -/
theorem pairAt_eq {Nx Ny P px r ix : ℕ} (h : DecompOK Nx Ny P px)
    (hr : r < P) (hix : ix < (Nx / 2 / px) * (Ny / 2 / (P / px))) :
    pairAt Nx Ny P px r ix =
      (((nclosed (Nx / 2) px (r / (P / px)) (ix / (Ny / 2 / (P / px))) : ℕ) : ℤ),
       ((nclosed (Ny / 2) (P / px) (r % (P / px)) (ix % (Ny / 2 / (P / px))) : ℕ) : ℤ)) := by
  have hny : 0 < Ny / 2 / (P / px) := by
    obtain ⟨ky, hky⟩ := h.2.2.2.2.2.2
    rw [hky]
    exact Nat.pos_pow_of_pos _ (by decide)
  have hdivlt : ix / (Ny / 2 / (P / px)) < Nx / 2 / px := by
    rw [Nat.div_lt_iff_lt_mul hny]
    exact hix
  have hmodlt : ix % (Ny / 2 / (P / px)) < Ny / 2 / (P / px) :=
    Nat.mod_lt _ hny
  rw [pairAt, get_rankx_eq, get_ranky, nx_eq Ny (P / px),
    axisVal_eq h.1 (rankx_lt h hr) h.2.2.2.1 hdivlt,
    axisVal_eq h.py_pos (ranky_lt h r) h.2.2.2.2.1 hmodlt]

/-!
## Claims about the partitioner (C7, C10, C2, C8)
-/

/-- C7: for every rank coordinate `c` along an axis with half-size `H`
and per-axis process count `p` with `p ∣ H` and `0 ≤ c < p`, the
per-axis index list satisfies: `entry(i) = c + i·p` for every even
position `i`; `entry(i+1) = H − 1 − entry(i)` (that is,
`H − 1 − (c + i·p)`) for every odd position `i+1`; except when
`p = H`, in which case only the even entries are populated (every odd
slot stays unwritten). -/
theorem C7_per_axis_entries {H p c : ℕ} (hc : c < p) (hdvd : p ∣ H) :
    (∀ j, j < H / p → j % 2 = 0 →
      entry1D H p c j = some ((c : ℤ) + (j : ℤ) * (p : ℤ))) ∧
    (∀ j, j < H / p → j % 2 = 1 →
      entry1D H p c j = some ((H : ℤ) - 1 - ((c : ℤ) + ((j : ℤ) - 1) * (p : ℤ)))) ∧
    (p = H → ∀ j, j % 2 = 1 → entry1D H p c j = none) := by
  have hp : 0 < p := lt_of_le_of_lt (Nat.zero_le c) hc
  refine ⟨?_, ?_, ?_⟩
  · intro j hj hev
    rw [entry1D_eq_closed hp hc hdvd hj, nclosed_even_cast hev]
  · intro j hj hodd
    rw [entry1D_eq_closed hp hc hdvd hj, nclosed_odd_cast hc hdvd hj (by omega)]
  · intro hpe j hodd
    rw [entry1D, lastWrite_eq_none_iff]
    intro v hv
    rcases mem_writes1D.1 hv with ⟨_, hev, _⟩ | ⟨hne, _⟩
    · simp only at hev
      omega
    · exact hne hpe

theorem C7_witness :
    ((1 : ℕ) < 2 ∧ (2 : ℕ) ∣ 8) ∧
      entry1D 8 2 1 2 = some 5 ∧ entry1D 8 2 1 3 = some 2 := by
  have h := C7_per_axis_entries (H := 8) (p := 2) (c := 1)
    (by decide) (by decide)
  refine ⟨⟨by decide, by decide⟩, ?_, ?_⟩
  · rw [h.1 2 (by decide) (by decide)]
    decide
  · rw [h.2.1 3 (by decide) (by decide)]
    decide

/-- C10: under the preconditions `0 ≤ c < p`, `p ∣ H`, and
(`H/p` even or `p = H`), every write performed by the per-axis
`compute_index_list` is in bounds: every written slot lies in
`[0, H/p)` and every written value lies in `[0, H-1]`; in particular
when `p = H` the write list is the single entry `c` at slot 0, so the
out-of-range complement slot is never written. -/
theorem C10_writes_in_bounds {H p c : ℕ} (hc : c < p) (hdvd : p ∣ H)
    (hm : H / p % 2 = 0 ∨ p = H) :
    (∀ jv ∈ writes1D H p c,
      jv.1 < H / p ∧ 0 ≤ jv.2 ∧ jv.2 ≤ (H : ℤ) - 1) ∧
    (p = H → writes1D H p c = [(0, (c : ℤ))]) := by
  have hp : 0 < p := lt_of_le_of_lt (Nat.zero_le c) hc
  constructor
  · rintro ⟨j, v⟩ hmem
    obtain ⟨m, hmq⟩ : ∃ m, H / p = m := ⟨_, rfl⟩
    rcases mem_writes1D.1 hmem with ⟨hj, hev, hv⟩ | ⟨hpH, hj1, hj2, hev, hv⟩
    · dsimp only at hj hev hv ⊢
      have hlt : nclosed H p c j < H := nclosed_lt hp hc hdvd hj
      have hcast := nclosed_even_cast (H := H) (p := p) (c := c) hev
      refine ⟨hj, ?_, ?_⟩
      · rw [hv, ← hcast]
        exact Int.natCast_nonneg _
      · rw [hv, ← hcast]
        omega
    · dsimp only at hj1 hj2 hev hv ⊢
      have hmev : H / p % 2 = 0 := by
        rcases hm with h | h
        · exact h
        · exact absurd h hpH
      rw [hmq] at hj2 hmev
      have hjlt : j < m := by omega
      rw [← hmq] at hjlt
      have hlt : nclosed H p c (j - 1) < H :=
        nclosed_lt hp hc hdvd (hmq ▸ (by omega : j - 1 < m))
      have hcast := nclosed_even_cast (H := H) (p := p) (c := c) (j := j - 1) hev
      have hj1c : ((j - 1 : ℕ) : ℤ) = (j : ℤ) - 1 := by omega
      rw [hj1c] at hcast
      refine ⟨hjlt, ?_, ?_⟩
      · rw [hv, ← hcast]
        omega
      · rw [hv, ← hcast]
        omega
  · intro hpe
    have hH0 : 0 < H := hpe ▸ hp
    unfold writes1D
    rw [hpe, Nat.div_self hH0, show List.range 1 = [0] from rfl]
    simp

theorem C10_witness :
    ((1 : ℕ) < 2 ∧ (2 : ℕ) ∣ 8 ∧ (8 / 2 % 2 = 0 ∨ (2 : ℕ) = 8)) ∧
      ((0 : ℕ) < 8 / 2 ∧ (0 : ℤ) ≤ 1 ∧ (1 : ℤ) ≤ ((8 : ℕ) : ℤ) - 1) := by
  have h := C10_writes_in_bounds (H := 8) (p := 2) (c := 1)
    (by decide) (by decide) (Or.inl (by decide))
  refine ⟨⟨by decide, by decide, Or.inl (by decide)⟩, ?_⟩
  have h2 := h.1 (0, 1) (by decide)
  exact ⟨h2.1, h2.2.1, h2.2.2⟩

/-- C2: for every grid and process count satisfying the pre-run
decomposition constraints, the partitioner assigns every displacement
of the half-domain `⌊Nx/2⌋ × ⌊Ny/2⌋` to exactly one rank: the
concatenation over all ranks of the per-rank displacement lists is
duplicate-free and its members are exactly the half-domain. -/
theorem C2_partition_exact {Nx Ny P px : ℕ} (h : DecompOK Nx Ny P px) :
    (allDisplacements Nx Ny P px).Nodup ∧
      ∀ d : ℤ × ℤ, d ∈ allDisplacements Nx Ny P px ↔
        0 ≤ d.1 ∧ d.1 < ((Nx / 2 : ℕ) : ℤ) ∧
          0 ≤ d.2 ∧ d.2 < ((Ny / 2 : ℕ) : ℤ) :=
  ⟨allDisplacements_nodup h, mem_allDisplacements_iff h⟩

theorem C2_witness :
    DecompOK 8 8 4 2 ∧
      ((allDisplacements 8 8 4 2).Nodup ∧
        ∀ d : ℤ × ℤ, d ∈ allDisplacements 8 8 4 2 ↔
          0 ≤ d.1 ∧ d.1 < ((8 / 2 : ℕ) : ℤ) ∧
            0 ≤ d.2 ∧ d.2 < ((8 / 2 : ℕ) : ℤ)) :=
  have h : DecompOK 8 8 4 2 :=
    ⟨by decide, by decide, by decide, by decide, by decide,
      ⟨1, by decide⟩, ⟨1, by decide⟩⟩
  ⟨h, C2_partition_exact h⟩

/-- C8: at each iteration position `ix` of the filled local
displacement lists, the displacement pairs contributed by two distinct
ranks to the same collective gather are distinct, so the per-gather
writes into the result tensor target distinct slots. -/
theorem C8_gather_slots_distinct {Nx Ny P px r r' ix : ℕ}
    (h : DecompOK Nx Ny P px) (hr : r < P) (hr' : r' < P) (hne : r ≠ r')
    (hix : ix < (Nx / 2 / px) * (Ny / 2 / (P / px))) :
    pairAt Nx Ny P px r ix ≠ pairAt Nx Ny P px r' ix := by
  have hny : 0 < Ny / 2 / (P / px) := by
    obtain ⟨ky, hky⟩ := h.2.2.2.2.2.2
    rw [hky]
    exact Nat.pos_pow_of_pos _ (by decide)
  have hdivlt : ix / (Ny / 2 / (P / px)) < Nx / 2 / px := by
    rw [Nat.div_lt_iff_lt_mul hny]
    exact hix
  have hmodlt : ix % (Ny / 2 / (P / px)) < Ny / 2 / (P / px) :=
    Nat.mod_lt _ hny
  rw [pairAt_eq h hr hix, pairAt_eq h hr' hix]
  intro heq
  have h1 : nclosed (Nx / 2) px (r / (P / px)) (ix / (Ny / 2 / (P / px))) =
      nclosed (Nx / 2) px (r' / (P / px)) (ix / (Ny / 2 / (P / px))) := by
    have h0 := congrArg Prod.fst heq
    dsimp only at h0
    exact_mod_cast h0
  have h2 : nclosed (Ny / 2) (P / px) (r % (P / px)) (ix % (Ny / 2 / (P / px))) =
      nclosed (Ny / 2) (P / px) (r' % (P / px)) (ix % (Ny / 2 / (P / px))) := by
    have h0 := congrArg Prod.snd heq
    dsimp only at h0
    exact_mod_cast h0
  have hx := nclosed_inj h.1 (rankx_lt h hr) (rankx_lt h hr')
    hdivlt hdivlt h.hmx h1
  have hy := nclosed_inj h.py_pos (ranky_lt h r) (ranky_lt h r')
    hmodlt hmodlt h.hmy h2
  have hrr : r = r' := by
    rw [← Nat.div_add_mod r (P / px), ← Nat.div_add_mod r' (P / px),
      hx.1, hy.1]
  exact hne hrr

theorem C8_witness :
    (DecompOK 8 8 4 2 ∧ (0 : ℕ) < 4 ∧ (1 : ℕ) < 4 ∧ (0 : ℕ) ≠ 1 ∧
      (0 : ℕ) < (8 / 2 / 2) * (8 / 2 / (4 / 2))) ∧
      pairAt 8 8 4 2 0 0 ≠ pairAt 8 8 4 2 1 0 :=
  have h : DecompOK 8 8 4 2 :=
    ⟨by decide, by decide, by decide, by decide, by decide,
      ⟨1, by decide⟩, ⟨1, by decide⟩⟩
  ⟨⟨h, by decide, by decide, by decide, by decide⟩,
    C8_gather_slots_distinct h (by decide) (by decide) (by decide) (by decide)⟩

/-!
## Pre-run validation in `main` (C5)

```cpp
 	if (px > P) { ... exit(1); }
    if (Nx/2%px != 0) { ... exit(1); }
    int N2;
    if (two_dimension_switch) { N2 = Nz; } else { N2 = Ny; }
    if (N2/2%(P/px) != 0) { ... exit(1); }
```
The run proceeds to compute iff none of the three guards fires. -/

/-- The pre-run validation checks of `main`: the run reaches compute
iff this returns `true`. -/
def validationPasses (Nx N2 P px : ℕ) : Bool :=
  !(px > P) && (Nx / 2 % px == 0) && (N2 / 2 % (P / px) == 0)

/-- C5: the claim states that pre-run validation rejects, before
compute, every configuration whose half-axis quotient is not a power
of two.  The code only tests divisibility: the configuration
`Nx = 12, N2 = 8, P = 2, px = 2` passes all three guards although the
quotient `(Nx/2)/px = 3` is not a power of two, contradicting both
the claim and the code's own diagnostic text, which demands a power of
two it never tests. -/
theorem C5_validation_gap :
    validationPasses 12 8 2 2 = true ∧ ¬ ∃ k, 12 / 2 / 2 = 2 ^ k := by
  refine ⟨by decide, ?_⟩
  rintro ⟨k, hk⟩
  norm_num at hk
  rcases k with _ | _ | k
  · norm_num at hk
  · norm_num at hk
  · have h4 : 4 ≤ 2 ^ (k + 2) := by
      calc (4 : ℕ) = 2 ^ 2 := by norm_num
      _ ≤ 2 ^ (k + 2) := Nat.pow_le_pow_right (by norm_num) (by omega)
    omega

/-!
## 32-bit pair count (C9)

`SFunc3D` and `SF_scalar_3D` compute
`int count=(Nx-x)*(Ny-y)*(Nz-z);` in C `int` arithmetic and divide the
per-order sums by it. -/

/-- Two's-complement wrap onto the 32-bit signed window
`[-2^31, 2^31)`. -/
def wrap32 (n : ℤ) : ℤ := (n + 2 ^ 31) % 2 ^ 32 - 2 ^ 31

/-- Source line `int count=(Nx-x)*(Ny-y)*(Nz-z);` — the pair count in 32-bit
signed arithmetic (left-to-right, each intermediate wrapped). -/
def count32 (Nx Ny Nz x y z : ℤ) : ℤ :=
  wrap32 (wrap32 ((Nx - x) * (Ny - y)) * (Nz - z))

theorem wrap32_eq_self {n : ℤ} (h1 : -2 ^ 31 ≤ n) (h2 : n < 2 ^ 31) :
    wrap32 n = n := by
  unfold wrap32
  omega

theorem wrap32_lt (n : ℤ) : -2 ^ 31 ≤ wrap32 n ∧ wrap32 n < 2 ^ 31 := by
  unfold wrap32
  constructor <;> omega

theorem wrap32_emod (n : ℤ) : wrap32 n % 2 ^ 32 = n % 2 ^ 32 := by
  unfold wrap32
  omega

theorem count32_emod (Nx Ny Nz x y z : ℤ) :
    count32 Nx Ny Nz x y z % 2 ^ 32 =
      (Nx - x) * (Ny - y) * (Nz - z) % 2 ^ 32 := by
  unfold count32
  rw [wrap32_emod]
  have h1 : wrap32 ((Nx - x) * (Ny - y)) * (Nz - z) % 2 ^ 32 =
      (Nx - x) * (Ny - y) * (Nz - z) % 2 ^ 32 :=
    Int.ModEq.mul_right (Nz - z) (wrap32_emod ((Nx - x) * (Ny - y)))
  exact h1

theorem count32_eq_iff {a b c : ℤ} (ha : 1 ≤ a) (hb : 1 ≤ b) (hc : 1 ≤ c) :
    wrap32 (wrap32 (a * b) * c) = a * b * c ↔ a * b * c < 2 ^ 31 := by
  constructor
  · intro heq
    have := (wrap32_lt (wrap32 (a * b) * c)).2
    rw [heq] at this
    exact this
  · intro hlt
    have hab1 : 1 ≤ a * b := one_le_mul_of_one_le_of_one_le ha hb
    have habP : a * b ≤ a * b * c := le_mul_of_one_le_right (by linarith) hc
    have hab : wrap32 (a * b) = a * b :=
      wrap32_eq_self (by linarith) (by linarith)
    have hP1 : 1 ≤ a * b * c := one_le_mul_of_one_le_of_one_le hab1 hc
    rw [hab]
    exact wrap32_eq_self (by linarith) hlt

/-- C9: the pair count at displacement `(x,y,z)` is computed in 32-bit
signed `int` arithmetic as `(Nx-x)*(Ny-y)*(Nz-z)`; it equals the true
product exactly when that product is below `2^31`, it is always
congruent to the true product modulo `2^32`, and on a grid whose total
point count reaches `2^31` the divisor at the origin displacement
differs from the true product (it has wrapped). -/
theorem C9_count32_wraps {Nx Ny Nz x y z : ℤ}
    (hx : 0 ≤ x) (hx2 : x < Nx) (hy : 0 ≤ y) (hy2 : y < Ny)
    (hz : 0 ≤ z) (hz2 : z < Nz) :
    (count32 Nx Ny Nz x y z = (Nx - x) * (Ny - y) * (Nz - z) ↔
      (Nx - x) * (Ny - y) * (Nz - z) < 2 ^ 31) ∧
    count32 Nx Ny Nz x y z % 2 ^ 32 =
      (Nx - x) * (Ny - y) * (Nz - z) % 2 ^ 32 ∧
    (2 ^ 31 ≤ Nx * Ny * Nz → count32 Nx Ny Nz 0 0 0 ≠ Nx * Ny * Nz) := by
  refine ⟨count32_eq_iff (by omega) (by omega) (by omega),
    count32_emod Nx Ny Nz x y z, ?_⟩
  intro hbig heq
  have h0 : count32 Nx Ny Nz 0 0 0 =
      wrap32 (wrap32 (Nx * Ny) * Nz) := by
    unfold count32
    norm_num
  rw [h0] at heq
  have := (count32_eq_iff (a := Nx) (b := Ny) (c := Nz)
    (by omega) (by omega) (by omega)).1 heq
  omega

theorem C9_witness :
    ((0 : ℤ) ≤ 1 ∧ (1 : ℤ) < 2048 ∧ (0 : ℤ) ≤ 1 ∧ (1 : ℤ) < 2048 ∧
      (0 : ℤ) ≤ 1 ∧ (1 : ℤ) < 2048 ∧ (2 : ℤ) ^ 31 ≤ 2048 * 2048 * 2048) ∧
      count32 2048 2048 2048 0 0 0 ≠ 2048 * 2048 * 2048 := by
  refine ⟨⟨by norm_num, by norm_num, by norm_num, by norm_num,
    by norm_num, by norm_num, by norm_num⟩, ?_⟩
  exact (C9_count32_wraps (x := 1) (y := 1) (z := 1)
    (by norm_num) (by norm_num) (by norm_num) (by norm_num)
    (by norm_num) (by norm_num)).2.2 (by norm_num)

/-!
## Difference & projection kernels

From `SFunc3D` (per displacement `(x,y,z)` and order exponent `q`):

```cpp
int count=(Nx-x)*(Ny-y)*(Nz-z);
double lx=x*dx; double ly=y*dy; double lz=z*dz;
double r=sqrt(lx*lx+ly*ly+lz*lz);
dUx(...)=Ux(Range(x,Nx-1),...)-Ux(Range(0,Nx-x-1),...);   // etc.
dUpll=(lx*dUx+ly*dUy+lz*dUz)/r;
dUx=dUx-dUpll*lx/r; dUy=dUy-dUpll*ly/r; dUz=dUz-dUpll*lz/r;
dUx=pow(dUx*dUx+dUy*dUy+dUz*dUz,0.5);
double Spll = sum(pow(dUpll,q1+p))/(count);
double Sperp =sum(pow(dUx,q1+p))/(count);
```

and from `SF_scalar_2D`:

```cpp
int count=(Nx-x)*(Nz-z);
dT(...)=T(Range(x,Nx-1),Range(z,Nz-1))-T(Range(0,Nx-x-1),Range(0,Nz-z-1));
double St = sum(pow(dT,q1+p))/(count);
```

`double` is modelled exactly over `ℝ`; `pow(s,0.5)` on the
non-negative argument `dUx*dUx+dUy*dUy+dUz*dUz` is `Real.sqrt`;
`pow(b, q1+p)` with the integer exponent `q1+p` is `zpow`. -/

noncomputable section

/-- Element `(i,j,k)` of the difference buffer `dU` of a 3D field for
displacement `(x,y,z)` (the blitz `Range` subtraction). -/
def delta3 (U : ℤ → ℤ → ℤ → ℝ) (x y z i j k : ℤ) : ℝ :=
  U (x + i) (y + j) (z + k) - U i j k

/-- Source line `r=sqrt(lx*lx+ly*ly+lz*lz)` with `lx=x*dx`, `ly=y*dy`, `lz=z*dz`. -/
def rdisp (dx dy dz : ℝ) (x y z : ℤ) : ℝ :=
  Real.sqrt ((x * dx) ^ 2 + (y * dy) ^ 2 + (z * dz) ^ 2)

/-- Source line `dUpll=(lx*dUx+ly*dUy+lz*dUz)/r;` (element `(i,j,k)`). -/
def dUpll (Ux Uy Uz : ℤ → ℤ → ℤ → ℝ) (dx dy dz : ℝ) (x y z i j k : ℤ) : ℝ :=
  (x * dx * delta3 Ux x y z i j k + y * dy * delta3 Uy x y z i j k +
      z * dz * delta3 Uz x y z i j k) / rdisp dx dy dz x y z

/-- The same projection step with its division modelled as fallible:
`none` exactly when the divisor `r` is zero. -/
def dUpllChecked (Ux Uy Uz : ℤ → ℤ → ℤ → ℝ) (dx dy dz : ℝ)
    (x y z i j k : ℤ) : Option ℝ :=
  if rdisp dx dy dz x y z = 0 then none
  else some (dUpll Ux Uy Uz dx dy dz x y z i j k)

/-- Source line `dUx=pow(dUx*dUx+dUy*dUy+dUz*dUz,0.5);` after the transverse
update `dUα ← dUα − dUpll·lα/r` (element `(i,j,k)`). -/
def dUperpMag (Ux Uy Uz : ℤ → ℤ → ℤ → ℝ) (dx dy dz : ℝ)
    (x y z i j k : ℤ) : ℝ :=
  Real.sqrt
    ((delta3 Ux x y z i j k -
        dUpll Ux Uy Uz dx dy dz x y z i j k * (x * dx) / rdisp dx dy dz x y z) ^ 2 +
     (delta3 Uy x y z i j k -
        dUpll Ux Uy Uz dx dy dz x y z i j k * (y * dy) / rdisp dx dy dz x y z) ^ 2 +
     (delta3 Uz x y z i j k -
        dUpll Ux Uy Uz dx dy dz x y z i j k * (z * dz) / rdisp dx dy dz x y z) ^ 2)

/-- Source line `Spll = sum(pow(dUpll,q1+p))/(count);` for one displacement and
one order exponent `q = q1+p`. -/
def Spll3D (Ux Uy Uz : ℤ → ℤ → ℤ → ℝ) (Nx Ny Nz : ℤ) (dx dy dz : ℝ)
    (q : ℤ) (x y z : ℤ) : ℝ :=
  (∑ i ∈ Finset.range (Nx - x).toNat, ∑ j ∈ Finset.range (Ny - y).toNat,
      ∑ k ∈ Finset.range (Nz - z).toNat,
        dUpll Ux Uy Uz dx dy dz x y z i j k ^ q) /
    ((count32 Nx Ny Nz x y z : ℤ) : ℝ)

/-- Source line `Sperp = sum(pow(dUx,q1+p))/(count);` likewise. -/
def Sperp3D (Ux Uy Uz : ℤ → ℤ → ℤ → ℝ) (Nx Ny Nz : ℤ) (dx dy dz : ℝ)
    (q : ℤ) (x y z : ℤ) : ℝ :=
  (∑ i ∈ Finset.range (Nx - x).toNat, ∑ j ∈ Finset.range (Ny - y).toNat,
      ∑ k ∈ Finset.range (Nz - z).toNat,
        dUperpMag Ux Uy Uz dx dy dz x y z i j k ^ q) /
    ((count32 Nx Ny Nz x y z : ℤ) : ℝ)

/-- 2D analog of the displacement magnitude, from `SFunc2D`. -/
def rdisp2D (dx dz : ℝ) (x z : ℤ) : ℝ :=
  Real.sqrt ((x * dx) ^ 2 + (z * dz) ^ 2)

/-- Element of the 2D difference buffer. -/
def delta2 (U : ℤ → ℤ → ℝ) (x z i k : ℤ) : ℝ :=
  U (x + i) (z + k) - U i k

/-- Source line `dUpll=(lx*dUx+lz*dUz)/r;` of `SFunc2D`, division fallible. -/
def dUpll2DChecked (Ux Uz : ℤ → ℤ → ℝ) (dx dz : ℝ) (x z i k : ℤ) :
    Option ℝ :=
  if rdisp2D dx dz x z = 0 then none
  else some ((x * dx * delta2 Ux x z i k + z * dz * delta2 Uz x z i k) /
    rdisp2D dx dz x z)

/-- Source line `int count=(Nx-x)*(Nz-z);` of the 2D drivers, in 32-bit `int`
arithmetic. -/
def count32_2D (Nx Nz x z : ℤ) : ℤ := wrap32 ((Nx - x) * (Nz - z))

/-- Source line `St = sum(pow(dT,q1+p))/(count);` of `SF_scalar_2D`. -/
def St2D (T : ℤ → ℤ → ℝ) (Nx Nz : ℤ) (q : ℤ) (x z : ℤ) : ℝ :=
  (∑ i ∈ Finset.range (Nx - x).toNat, ∑ k ∈ Finset.range (Nz - z).toNat,
      delta2 T x z i k ^ q) / ((count32_2D Nx Nz x z : ℤ) : ℝ)

/-!
## The spec-side formulas (§3, §4.3 of the spec)

These definitions follow the specification's words, to be compared
with the code-derived definitions above:
`S(l,p) = (1/|Ω(l)|)·Σ_{b ∈ Ω(l)} φ(Δb, l)^(q1+p)` with
`Ω(l) = {b : b and b+l in-grid}` and `|Ω(l)| = ∏_α (N_α − l_α)`. -/

/-- Modelled from the spec: the scalar 2D structure-function element,
an average over `Ω(l)` with divisor `∏ (N_α − l_α)`. -/
def St2D_spec (T : ℤ → ℤ → ℝ) (Nx Nz : ℕ) (q : ℤ) (x z : ℕ) : ℝ :=
  (∑ b ∈ (Finset.range Nx ×ˢ Finset.range Nz).filter
      (fun b => b.1 + x < Nx ∧ b.2 + z < Nz),
      (T ((b.1 + x : ℕ) : ℤ) ((b.2 + z : ℕ) : ℤ) -
        T (b.1 : ℤ) (b.2 : ℤ)) ^ q) /
    (((Nx - x) * (Nz - z) : ℕ) : ℝ)

/-- Modelled from the spec: the longitudinal 3D element,
`φ_∥ = (l_x δ_x + l_y δ_y + l_z δ_z)/r` averaged over `Ω(l)` with
divisor `∏ (N_α − l_α)`. -/
def Spll3D_spec (Ux Uy Uz : ℤ → ℤ → ℤ → ℝ) (Nx Ny Nz : ℕ)
    (dx dy dz : ℝ) (q : ℤ) (x y z : ℕ) : ℝ :=
  (∑ b ∈ (Finset.range Nx ×ˢ Finset.range Ny ×ˢ Finset.range Nz).filter
      (fun b => b.1 + x < Nx ∧ b.2.1 + y < Ny ∧ b.2.2 + z < Nz),
      (((x : ℝ) * dx *
          (Ux ((b.1 + x : ℕ) : ℤ) ((b.2.1 + y : ℕ) : ℤ) ((b.2.2 + z : ℕ) : ℤ) -
            Ux (b.1 : ℤ) (b.2.1 : ℤ) (b.2.2 : ℤ)) +
        (y : ℝ) * dy *
          (Uy ((b.1 + x : ℕ) : ℤ) ((b.2.1 + y : ℕ) : ℤ) ((b.2.2 + z : ℕ) : ℤ) -
            Uy (b.1 : ℤ) (b.2.1 : ℤ) (b.2.2 : ℤ)) +
        (z : ℝ) * dz *
          (Uz ((b.1 + x : ℕ) : ℤ) ((b.2.1 + y : ℕ) : ℤ) ((b.2.2 + z : ℕ) : ℤ) -
            Uz (b.1 : ℤ) (b.2.1 : ℤ) (b.2.2 : ℤ))) /
        Real.sqrt (((x : ℝ) * dx) ^ 2 + ((y : ℝ) * dy) ^ 2 + ((z : ℝ) * dz) ^ 2)) ^ q) /
    (((Nx - x) * (Ny - y) * (Nz - z) : ℕ) : ℝ)

/-- Modelled from the spec: the transverse 3D element,
`|Δ_⊥| = √(Σ_α (δ_α − Δ_∥·(l_α/r))²)` averaged over `Ω(l)` with
divisor `∏ (N_α − l_α)`. -/
def Sperp3D_spec (Ux Uy Uz : ℤ → ℤ → ℤ → ℝ) (Nx Ny Nz : ℕ)
    (dx dy dz : ℝ) (q : ℤ) (x y z : ℕ) : ℝ :=
  (∑ b ∈ (Finset.range Nx ×ˢ Finset.range Ny ×ˢ Finset.range Nz).filter
      (fun b => b.1 + x < Nx ∧ b.2.1 + y < Ny ∧ b.2.2 + z < Nz),
      (Real.sqrt
        (((Ux ((b.1 + x : ℕ) : ℤ) ((b.2.1 + y : ℕ) : ℤ) ((b.2.2 + z : ℕ) : ℤ) -
             Ux (b.1 : ℤ) (b.2.1 : ℤ) (b.2.2 : ℤ)) -
           dUpll Ux Uy Uz dx dy dz (x : ℤ) (y : ℤ) (z : ℤ)
             (b.1 : ℤ) (b.2.1 : ℤ) (b.2.2 : ℤ) *
             (((x : ℝ) * dx) / Real.sqrt (((x : ℝ) * dx) ^ 2 + ((y : ℝ) * dy) ^ 2 + ((z : ℝ) * dz) ^ 2))) ^ 2 +
         ((Uy ((b.1 + x : ℕ) : ℤ) ((b.2.1 + y : ℕ) : ℤ) ((b.2.2 + z : ℕ) : ℤ) -
             Uy (b.1 : ℤ) (b.2.1 : ℤ) (b.2.2 : ℤ)) -
           dUpll Ux Uy Uz dx dy dz (x : ℤ) (y : ℤ) (z : ℤ)
             (b.1 : ℤ) (b.2.1 : ℤ) (b.2.2 : ℤ) *
             (((y : ℝ) * dy) / Real.sqrt (((x : ℝ) * dx) ^ 2 + ((y : ℝ) * dy) ^ 2 + ((z : ℝ) * dz) ^ 2))) ^ 2 +
         ((Uz ((b.1 + x : ℕ) : ℤ) ((b.2.1 + y : ℕ) : ℤ) ((b.2.2 + z : ℕ) : ℤ) -
             Uz (b.1 : ℤ) (b.2.1 : ℤ) (b.2.2 : ℤ)) -
           dUpll Ux Uy Uz dx dy dz (x : ℤ) (y : ℤ) (z : ℤ)
             (b.1 : ℤ) (b.2.1 : ℤ) (b.2.2 : ℤ) *
             (((z : ℝ) * dz) / Real.sqrt (((x : ℝ) * dx) ^ 2 + ((y : ℝ) * dy) ^ 2 + ((z : ℝ) * dz) ^ 2))) ^ 2)) ^ q) /
    (((Nx - x) * (Ny - y) * (Nz - z) : ℕ) : ℝ)

end

/-!
## Reindexing `Ω(l)` onto the difference-buffer index ranges
-/

theorem filter_grid_eq_2D {Nx Nz x z : ℕ} (hx : x ≤ Nx) (hz : z ≤ Nz) :
    (Finset.range Nx ×ˢ Finset.range Nz).filter
        (fun b => b.1 + x < Nx ∧ b.2 + z < Nz) =
      Finset.range (Nx - x) ×ˢ Finset.range (Nz - z) := by
  ext ⟨i, k⟩
  simp only [Finset.mem_filter, Finset.mem_product, Finset.mem_range]
  omega

theorem sum_omega_2D (f : ℕ → ℕ → ℝ) {Nx Nz x z : ℕ}
    (hx : x ≤ Nx) (hz : z ≤ Nz) :
    ∑ b ∈ (Finset.range Nx ×ˢ Finset.range Nz).filter
        (fun b => b.1 + x < Nx ∧ b.2 + z < Nz), f b.1 b.2 =
      ∑ i ∈ Finset.range (Nx - x), ∑ k ∈ Finset.range (Nz - z), f i k := by
  rw [filter_grid_eq_2D hx hz, Finset.sum_product]

theorem filter_grid_eq_3D {Nx Ny Nz x y z : ℕ}
    (hx : x ≤ Nx) (hy : y ≤ Ny) (hz : z ≤ Nz) :
    (Finset.range Nx ×ˢ Finset.range Ny ×ˢ Finset.range Nz).filter
        (fun b => b.1 + x < Nx ∧ b.2.1 + y < Ny ∧ b.2.2 + z < Nz) =
      Finset.range (Nx - x) ×ˢ (Finset.range (Ny - y) ×ˢ Finset.range (Nz - z)) := by
  ext ⟨i, j, k⟩
  simp only [Finset.mem_filter, Finset.mem_product, Finset.mem_range]
  omega

theorem sum_omega_3D (f : ℕ → ℕ → ℕ → ℝ) {Nx Ny Nz x y z : ℕ}
    (hx : x ≤ Nx) (hy : y ≤ Ny) (hz : z ≤ Nz) :
    ∑ b ∈ (Finset.range Nx ×ˢ Finset.range Ny ×ˢ Finset.range Nz).filter
        (fun b => b.1 + x < Nx ∧ b.2.1 + y < Ny ∧ b.2.2 + z < Nz),
        f b.1 b.2.1 b.2.2 =
      ∑ i ∈ Finset.range (Nx - x), ∑ j ∈ Finset.range (Ny - y),
        ∑ k ∈ Finset.range (Nz - z), f i j k := by
  rw [filter_grid_eq_3D hx hy hz, Finset.sum_product]
  refine Finset.sum_congr rfl fun i _ => ?_
  rw [Finset.sum_product]

theorem St2D_eq_spec {Nx Nz x z : ℕ} (T : ℤ → ℤ → ℝ) (q : ℤ)
    (hx : x ≤ Nx) (hz : z ≤ Nz)
    (hov : (Nx - x) * (Nz - z) < 2 ^ 31) :
    St2D T ↑Nx ↑Nz q ↑x ↑z = St2D_spec T Nx Nz q x z := by
  have ex : ((Nx : ℤ) - (x : ℕ)).toNat = Nx - x := by omega
  have ez : ((Nz : ℤ) - (z : ℕ)).toNat = Nz - z := by omega
  have ediv : count32_2D ↑Nx ↑Nz ↑x ↑z = (((Nx - x) * (Nz - z) : ℕ) : ℤ) := by
    unfold count32_2D
    have e1 : (Nx : ℤ) - (x : ℕ) = ((Nx - x : ℕ) : ℤ) := by omega
    have e2 : (Nz : ℤ) - (z : ℕ) = ((Nz - z : ℕ) : ℤ) := by omega
    rw [e1, e2, ← Nat.cast_mul]
    refine wrap32_eq_self (le_trans (by norm_num) (Int.natCast_nonneg _)) ?_
    exact_mod_cast hov
  simp only [St2D, St2D_spec]
  rw [ex, ez, ediv,
    sum_omega_2D
      (fun i k => (T ((i + x : ℕ) : ℤ) ((k + z : ℕ) : ℤ) - T (i : ℤ) (k : ℤ)) ^ q)
      hx hz]
  congr 1
  refine Finset.sum_congr rfl fun i _ => ?_
  refine Finset.sum_congr rfl fun k _ => ?_
  have e3 : ((i + x : ℕ) : ℤ) = (x : ℤ) + (i : ℤ) := by push_cast; ring
  have e4 : ((k + z : ℕ) : ℤ) = (z : ℤ) + (k : ℤ) := by push_cast; ring
  rw [delta2, e3, e4]

theorem count32_cast_eq {Nx Ny Nz x y z : ℕ}
    (hx : x ≤ Nx) (hy : y ≤ Ny) (hz : z < Nz)
    (hov : (Nx - x) * (Ny - y) * (Nz - z) < 2 ^ 31) :
    count32 ↑Nx ↑Ny ↑Nz ↑x ↑y ↑z =
      (((Nx - x) * (Ny - y) * (Nz - z) : ℕ) : ℤ) := by
  unfold count32
  have e1 : (Nx : ℤ) - (x : ℕ) = ((Nx - x : ℕ) : ℤ) := by omega
  have e2 : (Ny : ℤ) - (y : ℕ) = ((Ny - y : ℕ) : ℤ) := by omega
  have e3 : (Nz : ℤ) - (z : ℕ) = ((Nz - z : ℕ) : ℤ) := by omega
  have hab : (Nx - x) * (Ny - y) < 2 ^ 31 :=
    lt_of_le_of_lt
      (Nat.le_mul_of_pos_right _ (by omega : 0 < Nz - z)) hov
  rw [e1, e2, e3, ← Nat.cast_mul,
    wrap32_eq_self (le_trans (by norm_num) (Int.natCast_nonneg _))
      (by exact_mod_cast hab),
    ← Nat.cast_mul]
  exact wrap32_eq_self (le_trans (by norm_num) (Int.natCast_nonneg _))
    (by exact_mod_cast hov)

theorem Spll3D_eq_spec {Nx Ny Nz x y z : ℕ}
    (Ux Uy Uz : ℤ → ℤ → ℤ → ℝ) (dx dy dz : ℝ) (q : ℤ)
    (hx : x ≤ Nx) (hy : y ≤ Ny) (hz : z < Nz)
    (hov : (Nx - x) * (Ny - y) * (Nz - z) < 2 ^ 31) :
    Spll3D Ux Uy Uz ↑Nx ↑Ny ↑Nz dx dy dz q ↑x ↑y ↑z =
      Spll3D_spec Ux Uy Uz Nx Ny Nz dx dy dz q x y z := by
  have exn : ((Nx : ℤ) - (x : ℕ)).toNat = Nx - x := by omega
  have eyn : ((Ny : ℤ) - (y : ℕ)).toNat = Ny - y := by omega
  have ezn : ((Nz : ℤ) - (z : ℕ)).toNat = Nz - z := by omega
  simp only [Spll3D, Spll3D_spec]
  rw [exn, eyn, ezn, count32_cast_eq hx hy hz hov,
    sum_omega_3D
      (fun i j k =>
        (((x : ℝ) * dx *
            (Ux ((i + x : ℕ) : ℤ) ((j + y : ℕ) : ℤ) ((k + z : ℕ) : ℤ) -
              Ux (i : ℤ) (j : ℤ) (k : ℤ)) +
          (y : ℝ) * dy *
            (Uy ((i + x : ℕ) : ℤ) ((j + y : ℕ) : ℤ) ((k + z : ℕ) : ℤ) -
              Uy (i : ℤ) (j : ℤ) (k : ℤ)) +
          (z : ℝ) * dz *
            (Uz ((i + x : ℕ) : ℤ) ((j + y : ℕ) : ℤ) ((k + z : ℕ) : ℤ) -
              Uz (i : ℤ) (j : ℤ) (k : ℤ))) /
          Real.sqrt (((x : ℝ) * dx) ^ 2 + ((y : ℝ) * dy) ^ 2 + ((z : ℝ) * dz) ^ 2)) ^ q)
      hx hy (le_of_lt hz)]
  congr 1
  refine Finset.sum_congr rfl fun i _ => ?_
  refine Finset.sum_congr rfl fun j _ => ?_
  refine Finset.sum_congr rfl fun k _ => ?_
  have e4 : ((i + x : ℕ) : ℤ) = (x : ℤ) + (i : ℤ) := by push_cast; ring
  have e5 : ((j + y : ℕ) : ℤ) = (y : ℤ) + (j : ℤ) := by push_cast; ring
  have e6 : ((k + z : ℕ) : ℤ) = (z : ℤ) + (k : ℤ) := by push_cast; ring
  simp only [dUpll, delta3, rdisp]
  rw [e4, e5, e6]
  push_cast
  ring

theorem Sperp3D_eq_spec {Nx Ny Nz x y z : ℕ}
    (Ux Uy Uz : ℤ → ℤ → ℤ → ℝ) (dx dy dz : ℝ) (q : ℤ)
    (hx : x ≤ Nx) (hy : y ≤ Ny) (hz : z < Nz)
    (hov : (Nx - x) * (Ny - y) * (Nz - z) < 2 ^ 31) :
    Sperp3D Ux Uy Uz ↑Nx ↑Ny ↑Nz dx dy dz q ↑x ↑y ↑z =
      Sperp3D_spec Ux Uy Uz Nx Ny Nz dx dy dz q x y z := by
  have exn : ((Nx : ℤ) - (x : ℕ)).toNat = Nx - x := by omega
  have eyn : ((Ny : ℤ) - (y : ℕ)).toNat = Ny - y := by omega
  have ezn : ((Nz : ℤ) - (z : ℕ)).toNat = Nz - z := by omega
  simp only [Sperp3D, Sperp3D_spec]
  rw [exn, eyn, ezn, count32_cast_eq hx hy hz hov,
    sum_omega_3D
      (fun i j k =>
        (Real.sqrt
          (((Ux ((i + x : ℕ) : ℤ) ((j + y : ℕ) : ℤ) ((k + z : ℕ) : ℤ) -
               Ux (i : ℤ) (j : ℤ) (k : ℤ)) -
             dUpll Ux Uy Uz dx dy dz (x : ℤ) (y : ℤ) (z : ℤ)
               (i : ℤ) (j : ℤ) (k : ℤ) *
               (((x : ℝ) * dx) /
                 Real.sqrt (((x : ℝ) * dx) ^ 2 + ((y : ℝ) * dy) ^ 2 + ((z : ℝ) * dz) ^ 2))) ^ 2 +
           ((Uy ((i + x : ℕ) : ℤ) ((j + y : ℕ) : ℤ) ((k + z : ℕ) : ℤ) -
               Uy (i : ℤ) (j : ℤ) (k : ℤ)) -
             dUpll Ux Uy Uz dx dy dz (x : ℤ) (y : ℤ) (z : ℤ)
               (i : ℤ) (j : ℤ) (k : ℤ) *
               (((y : ℝ) * dy) /
                 Real.sqrt (((x : ℝ) * dx) ^ 2 + ((y : ℝ) * dy) ^ 2 + ((z : ℝ) * dz) ^ 2))) ^ 2 +
           ((Uz ((i + x : ℕ) : ℤ) ((j + y : ℕ) : ℤ) ((k + z : ℕ) : ℤ) -
               Uz (i : ℤ) (j : ℤ) (k : ℤ)) -
             dUpll Ux Uy Uz dx dy dz (x : ℤ) (y : ℤ) (z : ℤ)
               (i : ℤ) (j : ℤ) (k : ℤ) *
               (((z : ℝ) * dz) /
                 Real.sqrt (((x : ℝ) * dx) ^ 2 + ((y : ℝ) * dy) ^ 2 + ((z : ℝ) * dz) ^ 2))) ^ 2)) ^ q)
      hx hy (le_of_lt hz)]
  congr 1
  refine Finset.sum_congr rfl fun i _ => ?_
  refine Finset.sum_congr rfl fun j _ => ?_
  refine Finset.sum_congr rfl fun k _ => ?_
  have e4 : ((i + x : ℕ) : ℤ) = (x : ℤ) + (i : ℤ) := by push_cast; ring
  have e5 : ((j + y : ℕ) : ℤ) = (y : ℤ) + (j : ℤ) := by push_cast; ring
  have e6 : ((k + z : ℕ) : ℤ) = (z : ℤ) + (k : ℤ) := by push_cast; ring
  congr 1
  simp only [dUperpMag, delta3, rdisp]
  rw [e4, e5, e6]
  congr 1
  push_cast
  ring

/-- C1: for every displacement in the half-domain and every order
exponent `q = q1+p`, the computed structure-function element equals
the spec's average over `Ω(l)` — the sum of the field-difference
functional to the power `q` over all in-grid pairs — divided by
exactly `∏_α (N_α − l_α)`; shown for the cited kernels `SF_scalar_2D`
(scalar element) and `SFunc3D` (longitudinal and transverse
elements).  The products of surviving extents are assumed below
`2^31`, so the `int` pair count has not wrapped (claim C9 covers the
wrap).  Division by the displacement magnitude `r` is total (`x/0=0`)
on both sides; the origin value is discarded by the origin cleanup
(claims C4 and C6). -/
theorem C1_element_is_average
    (T : ℤ → ℤ → ℝ) (Ux Uy Uz : ℤ → ℤ → ℤ → ℝ) (dx dy dz : ℝ) (q : ℤ)
    {Nx2 Nz2 x2 z2 : ℕ} (hx2 : x2 < Nx2 / 2) (hz2 : z2 < Nz2 / 2)
    (hov2 : (Nx2 - x2) * (Nz2 - z2) < 2 ^ 31)
    {Nx Ny Nz x y z : ℕ} (hx : x < Nx / 2) (hy : y < Ny / 2) (hz : z < Nz / 2)
    (hov : (Nx - x) * (Ny - y) * (Nz - z) < 2 ^ 31) :
    St2D T ↑Nx2 ↑Nz2 q ↑x2 ↑z2 = St2D_spec T Nx2 Nz2 q x2 z2 ∧
    Spll3D Ux Uy Uz ↑Nx ↑Ny ↑Nz dx dy dz q ↑x ↑y ↑z =
      Spll3D_spec Ux Uy Uz Nx Ny Nz dx dy dz q x y z ∧
    Sperp3D Ux Uy Uz ↑Nx ↑Ny ↑Nz dx dy dz q ↑x ↑y ↑z =
      Sperp3D_spec Ux Uy Uz Nx Ny Nz dx dy dz q x y z := by
  have hx2' : x2 ≤ Nx2 := le_trans (le_of_lt hx2) (Nat.div_le_self _ _)
  have hz2' : z2 ≤ Nz2 := le_trans (le_of_lt hz2) (Nat.div_le_self _ _)
  have hx' : x ≤ Nx := le_trans (le_of_lt hx) (Nat.div_le_self _ _)
  have hy' : y ≤ Ny := le_trans (le_of_lt hy) (Nat.div_le_self _ _)
  have hz' : z < Nz := lt_of_lt_of_le hz (Nat.div_le_self _ _)
  exact ⟨St2D_eq_spec T q hx2' hz2' hov2,
    Spll3D_eq_spec Ux Uy Uz dx dy dz q hx' hy' hz' hov,
    Sperp3D_eq_spec Ux Uy Uz dx dy dz q hx' hy' hz' hov⟩

theorem C1_witness :
    ((1 : ℕ) < 4 / 2 ∧ (4 - 1) * (4 - 1) < 2 ^ 31 ∧
      (4 - 1) * (4 - 1) * (4 - 1) < 2 ^ 31) ∧
      (St2D (fun _ _ => 0) ((4 : ℕ) : ℤ) ((4 : ℕ) : ℤ) 1 ((1 : ℕ) : ℤ) ((1 : ℕ) : ℤ) =
          St2D_spec (fun _ _ => 0) 4 4 1 1 1 ∧
        Spll3D (fun _ _ _ => 0) (fun _ _ _ => 0) (fun _ _ _ => 0)
            ((4 : ℕ) : ℤ) ((4 : ℕ) : ℤ) ((4 : ℕ) : ℤ) 1 1 1 1
            ((1 : ℕ) : ℤ) ((1 : ℕ) : ℤ) ((1 : ℕ) : ℤ) =
          Spll3D_spec (fun _ _ _ => 0) (fun _ _ _ => 0) (fun _ _ _ => 0)
            4 4 4 1 1 1 1 1 1 1 ∧
        Sperp3D (fun _ _ _ => 0) (fun _ _ _ => 0) (fun _ _ _ => 0)
            ((4 : ℕ) : ℤ) ((4 : ℕ) : ℤ) ((4 : ℕ) : ℤ) 1 1 1 1
            ((1 : ℕ) : ℤ) ((1 : ℕ) : ℤ) ((1 : ℕ) : ℤ) =
          Sperp3D_spec (fun _ _ _ => 0) (fun _ _ _ => 0) (fun _ _ _ => 0)
            4 4 4 1 1 1 1 1 1 1) :=
  ⟨⟨by decide, by decide, by decide⟩,
    C1_element_is_average (fun _ _ => 0) (fun _ _ _ => 0) (fun _ _ _ => 0)
      (fun _ _ _ => 0) 1 1 1 1
      (by decide) (by decide) (by decide) (by decide) (by decide) (by decide)
      (by decide)⟩

/-- C6 counterexample: at the origin displacement the 3D kernel's
projection step `dUpll=(lx*dUx+ly*dUy+lz*dUz)/r;` is executed with
divisor `r = 0` — the fallible division yields `none` — so the
computation at the origin is neither skipped nor replaced by a
sentinel before dividing. -/
theorem C6_counterexample :
    rdisp 1 1 1 0 0 0 = 0 ∧
    dUpllChecked (fun _ _ _ => 0) (fun _ _ _ => 0) (fun _ _ _ => 0)
      1 1 1 0 0 0 0 0 0 = none := by
  have hr : rdisp 1 1 1 0 0 0 = 0 := by
    unfold rdisp
    norm_num
  exact ⟨hr, by unfold dUpllChecked; rw [if_pos hr]⟩

/-- C6 (amended): the difference-and-projection kernels do divide by
the displacement magnitude at the origin: `r = 0` there and the
projection step's division is performed on it (the C code computes
`0/0`; its result is discarded because the origin slot is overwritten
with zero after the loop — see C4).  Shown for the 3D kernel
(`SFunc3D`) and the 2D kernel (`SFunc2D`). -/
theorem C6_division_at_origin_amended
    (Ux Uy Uz : ℤ → ℤ → ℤ → ℝ) (Vx Vz : ℤ → ℤ → ℝ)
    (dx dy dz dx2 dz2 : ℝ) (i j k i2 k2 : ℤ) :
    rdisp dx dy dz 0 0 0 = 0 ∧
    dUpllChecked Ux Uy Uz dx dy dz 0 0 0 i j k = none ∧
    rdisp2D dx2 dz2 0 0 = 0 ∧
    dUpll2DChecked Vx Vz dx2 dz2 0 0 i2 k2 = none := by
  have hr : rdisp dx dy dz 0 0 0 = 0 := by
    unfold rdisp
    norm_num
  have hr2 : rdisp2D dx2 dz2 0 0 = 0 := by
    unfold rdisp2D
    norm_num
  exact ⟨hr, by unfold dUpllChecked; rw [if_pos hr], hr2,
    by unfold dUpll2DChecked; rw [if_pos hr2]⟩

/-!
## Result tensors as write-event lists (`SFunc3D`, `SF_scalar_2D`)

Rank 0 writes, once per (iteration `ix`, inner `z`, order index `p`,
source rank `i`), the tuple gathered from rank `i` into the dense
tensor; the loop bounds are identical on all ranks (`c_per_proc`,
`Nz/2`, `q2-q1+1`), so gather `(ix,z,p)` receives from rank `i` the
values computed at displacement `(pairAt … i ix, z)`; after the full
loop the origin row is zeroed (`SF_Grid_…(0,…,0,Range::all())=0`).
Reading a tensor cell is `lastWrite` over this event list. -/

noncomputable section

/-- Writes into `SF_Grid_pll` made by `SFunc3D`, in program order. -/
def SFunc3D_pll_writes (Ux Uy Uz : ℤ → ℤ → ℤ → ℝ) (Nx Ny Nz P px : ℕ)
    (dx dy dz : ℝ) (q1 q2 : ℤ) : List ((ℤ × ℤ × ℕ × ℕ) × ℝ) :=
  ((List.range (Nx * Ny / (4 * P))).flatMap fun ix =>
    (List.range (Nz / 2)).flatMap fun z =>
      (List.range (q2 - q1 + 1).toNat).flatMap fun p =>
        (List.range P).map fun i =>
          (((pairAt Nx Ny P px i ix).1, (pairAt Nx Ny P px i ix).2, z, p),
            Spll3D Ux Uy Uz ↑Nx ↑Ny ↑Nz dx dy dz (q1 + p)
              (pairAt Nx Ny P px i ix).1 (pairAt Nx Ny P px i ix).2 ↑z))
  ++ (List.range (q2 - q1 + 1).toNat).map fun p => (((0 : ℤ), (0 : ℤ), 0, p), 0)

/-- Writes into `SF_Grid_perp` made by `SFunc3D`, in program order. -/
def SFunc3D_perp_writes (Ux Uy Uz : ℤ → ℤ → ℤ → ℝ) (Nx Ny Nz P px : ℕ)
    (dx dy dz : ℝ) (q1 q2 : ℤ) : List ((ℤ × ℤ × ℕ × ℕ) × ℝ) :=
  ((List.range (Nx * Ny / (4 * P))).flatMap fun ix =>
    (List.range (Nz / 2)).flatMap fun z =>
      (List.range (q2 - q1 + 1).toNat).flatMap fun p =>
        (List.range P).map fun i =>
          (((pairAt Nx Ny P px i ix).1, (pairAt Nx Ny P px i ix).2, z, p),
            Sperp3D Ux Uy Uz ↑Nx ↑Ny ↑Nz dx dy dz (q1 + p)
              (pairAt Nx Ny P px i ix).1 (pairAt Nx Ny P px i ix).2 ↑z))
  ++ (List.range (q2 - q1 + 1).toNat).map fun p => (((0 : ℤ), (0 : ℤ), 0, p), 0)

/-- Writes into `SF_Grid2D_scalar` made by `SF_scalar_2D`. -/
def SF_scalar_2D_writes (T : ℤ → ℤ → ℝ) (Nx Nz P px : ℕ) (q1 q2 : ℤ) :
    List ((ℤ × ℤ × ℕ) × ℝ) :=
  ((List.range (Nx * Nz / (4 * P))).flatMap fun ix =>
    (List.range (q2 - q1 + 1).toNat).flatMap fun p =>
      (List.range P).map fun i =>
        (((pairAt Nx Nz P px i ix).1, (pairAt Nx Nz P px i ix).2, p),
          St2D T ↑Nx ↑Nz (q1 + p)
            (pairAt Nx Nz P px i ix).1 (pairAt Nx Nz P px i ix).2))
  ++ (List.range (q2 - q1 + 1).toNat).map fun p => (((0 : ℤ), (0 : ℤ), p), 0)

/-- Reading a cell of the final `SF_Grid_pll` tensor. -/
def SF_Grid_pll_final (Ux Uy Uz : ℤ → ℤ → ℤ → ℝ) (Nx Ny Nz P px : ℕ)
    (dx dy dz : ℝ) (q1 q2 : ℤ) (s : ℤ × ℤ × ℕ × ℕ) : Option ℝ :=
  lastWrite (SFunc3D_pll_writes Ux Uy Uz Nx Ny Nz P px dx dy dz q1 q2) s

/-- Reading a cell of the final `SF_Grid_perp` tensor. -/
def SF_Grid_perp_final (Ux Uy Uz : ℤ → ℤ → ℤ → ℝ) (Nx Ny Nz P px : ℕ)
    (dx dy dz : ℝ) (q1 q2 : ℤ) (s : ℤ × ℤ × ℕ × ℕ) : Option ℝ :=
  lastWrite (SFunc3D_perp_writes Ux Uy Uz Nx Ny Nz P px dx dy dz q1 q2) s

/-- Reading a cell of the final `SF_Grid2D_scalar` tensor. -/
def SF_Grid2D_scalar_final (T : ℤ → ℤ → ℝ) (Nx Nz P px : ℕ)
    (q1 q2 : ℤ) (s : ℤ × ℤ × ℕ) : Option ℝ :=
  lastWrite (SF_scalar_2D_writes T Nx Nz P px q1 q2) s

end

/-- The origin-cleanup row: reading back any order slot of the zeroed
origin row yields 0. -/
theorem lastWrite_cleanup {α : Type} [DecidableEq α] (g : ℕ → α)
    {M p : ℕ} (hp : p < M) :
    lastWrite ((List.range M).map fun q => (g q, (0 : ℝ))) (g p) = some 0 := by
  refine lastWrite_eq_of_mem (List.mem_map.2 ⟨p, List.mem_range.2 hp, rfl⟩) ?_
  intro w hw
  obtain ⟨q, _, heq⟩ := List.mem_map.1 hw
  exact (congrArg Prod.snd heq).symm

/-- C4: after compute completes, every produced output tensor holds 0
at the origin displacement for every order index, regardless of the
value the kernel computed there (the cleanup writes come after all
gather writes).  Shown for the cited tensors: `SF_Grid_pll` and
`SF_Grid_perp` of `SFunc3D`, and `SF_Grid2D_scalar` of
`SF_scalar_2D`. -/
theorem C4_origin_zero (Ux Uy Uz : ℤ → ℤ → ℤ → ℝ) (T : ℤ → ℤ → ℝ)
    (Nx Ny Nz Nx2 Nz2 P px P2 px2 : ℕ) (dx dy dz : ℝ) (q1 q2 : ℤ)
    {p : ℕ} (hp : p < (q2 - q1 + 1).toNat) :
    SF_Grid_pll_final Ux Uy Uz Nx Ny Nz P px dx dy dz q1 q2 (0, 0, 0, p) =
      some 0 ∧
    SF_Grid_perp_final Ux Uy Uz Nx Ny Nz P px dx dy dz q1 q2 (0, 0, 0, p) =
      some 0 ∧
    SF_Grid2D_scalar_final T Nx2 Nz2 P2 px2 q1 q2 (0, 0, p) = some 0 := by
  refine ⟨?_, ?_, ?_⟩
  · exact lastWrite_append_right
      (lastWrite_cleanup (fun q => ((0 : ℤ), (0 : ℤ), 0, q)) hp)
  · exact lastWrite_append_right
      (lastWrite_cleanup (fun q => ((0 : ℤ), (0 : ℤ), 0, q)) hp)
  · exact lastWrite_append_right
      (lastWrite_cleanup (fun q => ((0 : ℤ), (0 : ℤ), q)) hp)

theorem C4_witness :
    (2 : ℕ) < ((4 : ℤ) - 1 + 1).toNat ∧
      (SF_Grid_pll_final (fun _ _ _ => 0) (fun _ _ _ => 0) (fun _ _ _ => 0)
          8 8 8 2 1 1 1 1 1 4 (0, 0, 0, 2) = some 0 ∧
        SF_Grid_perp_final (fun _ _ _ => 0) (fun _ _ _ => 0) (fun _ _ _ => 0)
          8 8 8 2 1 1 1 1 1 4 (0, 0, 0, 2) = some 0 ∧
        SF_Grid2D_scalar_final (fun _ _ => 0) 8 8 2 1 1 4 (0, 0, 2) = some 0) :=
  ⟨by decide,
    C4_origin_zero (fun _ _ _ => 0) (fun _ _ _ => 0) (fun _ _ _ => 0)
      (fun _ _ => 0) 8 8 8 8 8 2 1 2 1 1 1 1 1 4 (by decide)⟩

theorem pack_lt {a b i j : ℕ} (hi : i < a) (hj : j < b) :
    i * b + j < a * b := by
  calc i * b + j < i * b + b := Nat.add_lt_add_left hj _
    _ = (i + 1) * b := by ring
    _ ≤ a * b := Nat.mul_le_mul_right _ hi

/-- Every half-domain displacement appears at some filled position of
some rank's list. -/
theorem pair_cover {Nx Ny P px : ℕ} (h : DecompOK Nx Ny P px)
    {a b : ℕ} (ha : a < Nx / 2) (hb : b < Ny / 2) :
    ∃ i < P, ∃ ix < (Nx / 2 / px) * (Ny / 2 / (P / px)),
      pairAt Nx Ny P px i ix = ((a : ℤ), (b : ℤ)) := by
  obtain ⟨cx, hcx, i0, hi0, hni⟩ := nclosed_surj h.1 h.2.2.2.1 h.hmx a ha
  obtain ⟨cy, hcy, j0, hj0, hnj⟩ :=
    nclosed_surj h.py_pos h.2.2.2.2.1 h.hmy b hb
  have hrP : cy + cx * (P / px) < P := by
    have := pack_lt hcx hcy
    rw [h.px_mul_py] at this
    omega
  have hdiv : (cy + cx * (P / px)) / (P / px) = cx := by
    rw [Nat.add_mul_div_right _ _ h.py_pos, Nat.div_eq_of_lt hcy, Nat.zero_add]
  have hmod : (cy + cx * (P / px)) % (P / px) = cy := by
    rw [Nat.add_mul_mod_self_right, Nat.mod_eq_of_lt hcy]
  have hixlt : i0 * (Ny / 2 / (P / px)) + j0 <
      (Nx / 2 / px) * (Ny / 2 / (P / px)) := pack_lt hi0 hj0
  have hixdiv : (i0 * (Ny / 2 / (P / px)) + j0) / (Ny / 2 / (P / px)) = i0 := by
    rw [Nat.add_comm, Nat.add_mul_div_right _ _ (by omega : 0 < Ny / 2 / (P / px)),
      Nat.div_eq_of_lt hj0, Nat.zero_add]
  have hixmod : (i0 * (Ny / 2 / (P / px)) + j0) % (Ny / 2 / (P / px)) = j0 := by
    rw [Nat.add_comm, Nat.add_mul_mod_self_right, Nat.mod_eq_of_lt hj0]
  refine ⟨cy + cx * (P / px), hrP, i0 * (Ny / 2 / (P / px)) + j0, hixlt, ?_⟩
  rw [pairAt_eq h hrP hixlt, hdiv, hmod, hixdiv, hixmod, hni, hnj]

/-- For the 32×32 outer grid, the driver loop bound
`c_per_proc = Nx*Ny/(4*P)` equals the number of filled positions
`nx*ny` of each rank's list. -/
theorem cpp_eq_32 {P px : ℕ} (h : DecompOK 32 32 P px) :
    32 * 32 / (4 * P) = (32 / 2 / px) * (32 / 2 / (P / px)) := by
  have hpx16 : px ∣ 16 := h.2.2.2.1
  have hpy16 : (P / px) ∣ 16 := h.2.2.2.2.1
  have hP : px * (P / px) = P := h.px_mul_py
  show 32 * 32 / (4 * P) = 16 / px * (16 / (P / px))
  rw [Nat.div_mul_div_comm hpx16 hpy16, hP]
  have h1 : (32 : ℕ) * 32 = 4 * 256 := by norm_num
  have h2 : (16 : ℕ) * 16 = 256 := by norm_num
  rw [h1, h2, Nat.mul_div_mul_left 256 P (by norm_num : 0 < 4)]

/-- Reading a non-origin cell of a gather-written tensor: every gather
writes a value that is a function of its slot, and the origin cleanup
touches only the origin, so the cell holds the kernel value of its
displacement and order. -/
theorem lastWrite_gather3D (val : ℤ → ℤ → ℕ → ℕ → ℝ)
    (Nx Ny Nz P px M' : ℕ)
    {x y : ℤ} {z p : ℕ} (hne : ¬(x = 0 ∧ y = 0 ∧ z = 0))
    (hmem : ∃ i < P, ∃ ix < Nx * Ny / (4 * P), pairAt Nx Ny P px i ix = (x, y))
    (hz : z < Nz / 2) (hp : p < M') :
    lastWrite
      (((List.range (Nx * Ny / (4 * P))).flatMap fun ix =>
          (List.range (Nz / 2)).flatMap fun z' =>
            (List.range M').flatMap fun p' =>
              (List.range P).map fun i =>
                (((pairAt Nx Ny P px i ix).1, (pairAt Nx Ny P px i ix).2, z', p'),
                  val (pairAt Nx Ny P px i ix).1 (pairAt Nx Ny P px i ix).2 z' p'))
        ++ (List.range M').map fun p' => (((0 : ℤ), (0 : ℤ), 0, p'), 0))
      (x, y, z, p) = some (val x y z p) := by
  obtain ⟨i, hiP, ix, hix, hpair⟩ := hmem
  refine lastWrite_eq_of_mem (List.mem_append_left _ ?_) ?_
  · refine List.mem_flatMap.2 ⟨ix, List.mem_range.2 hix, ?_⟩
    refine List.mem_flatMap.2 ⟨z, List.mem_range.2 hz, ?_⟩
    refine List.mem_flatMap.2 ⟨p, List.mem_range.2 hp, ?_⟩
    refine List.mem_map.2 ⟨i, List.mem_range.2 hiP, ?_⟩
    rw [hpair]
  · intro w hw
    rcases List.mem_append.1 hw with hw | hw
    · obtain ⟨ix', _, hw⟩ := List.mem_flatMap.1 hw
      obtain ⟨z', _, hw⟩ := List.mem_flatMap.1 hw
      obtain ⟨p', _, hw⟩ := List.mem_flatMap.1 hw
      obtain ⟨i', _, heq⟩ := List.mem_map.1 hw
      simp only [Prod.mk.injEq] at heq
      obtain ⟨⟨h1, h2, h3, h4⟩, hval⟩ := heq
      rw [← hval, h1, h2, h3, h4]
    · obtain ⟨p', _, heq⟩ := List.mem_map.1 hw
      simp only [Prod.mk.injEq] at heq
      exact absurd ⟨heq.1.1.symm, heq.1.2.1.symm, heq.1.2.2.1.symm⟩ hne

/-!
## The internally generated linear test field (`Read_Init`, 3D vector)

```cpp
Ux(i, j, k) = i*dx;  Uy(i, j, k) = j*dy;  Uz(i, j, k) = k*dz;
```
and the spacings from `main`: `dx=Lx/double(Nx-1)` (`0` when `Nx==1`). -/

noncomputable section

/-- From `Read_Init`: `Ux(i,j,k)=i*dx`. -/
def linUx (dx : ℝ) : ℤ → ℤ → ℤ → ℝ := fun i _ _ => (i : ℝ) * dx

/-- From `Read_Init`: `Uy(i,j,k)=j*dy`. -/
def linUy (dy : ℝ) : ℤ → ℤ → ℤ → ℝ := fun _ j _ => (j : ℝ) * dy

/-- From `Read_Init`: `Uz(i,j,k)=k*dz`. -/
def linUz (dz : ℝ) : ℤ → ℤ → ℤ → ℝ := fun _ _ k => (k : ℝ) * dz

/-- Grid spacing from `main`: `d = L/(N-1)`, and `0` when `N = 1`. -/
def spacing (N : ℕ) (L : ℝ) : ℝ := if N = 1 then 0 else L / ((N : ℝ) - 1)

end

theorem delta3_linUx (dx : ℝ) (x y z i j k : ℤ) :
    delta3 (linUx dx) x y z i j k = (x : ℝ) * dx := by
  unfold delta3 linUx
  push_cast
  ring

theorem delta3_linUy (dy : ℝ) (x y z i j k : ℤ) :
    delta3 (linUy dy) x y z i j k = (y : ℝ) * dy := by
  unfold delta3 linUy
  push_cast
  ring

theorem delta3_linUz (dz : ℝ) (x y z i j k : ℤ) :
    delta3 (linUz dz) x y z i j k = (z : ℝ) * dz := by
  unfold delta3 linUz
  push_cast
  ring

/-- On the linear field the longitudinal projection is constant and
equals `r` (away from the origin). -/
theorem dUpll_lin {d : ℝ} {x y z : ℤ} (hr : rdisp d d d x y z ≠ 0)
    (i j k : ℤ) :
    dUpll (linUx d) (linUy d) (linUz d) d d d x y z i j k =
      rdisp d d d x y z := by
  unfold dUpll
  rw [delta3_linUx, delta3_linUy, delta3_linUz]
  have hS : (x : ℝ) * d * ((x : ℝ) * d) + (y : ℝ) * d * ((y : ℝ) * d) +
      (z : ℝ) * d * ((z : ℝ) * d) = rdisp d d d x y z ^ 2 := by
    unfold rdisp
    rw [Real.sq_sqrt (by positivity)]
    ring
  rw [hS, sq, mul_div_assoc, div_self hr, mul_one]

/-- On the linear field the transverse residual magnitude vanishes. -/
theorem dUperpMag_lin {d : ℝ} {x y z : ℤ} (hr : rdisp d d d x y z ≠ 0)
    (i j k : ℤ) :
    dUperpMag (linUx d) (linUy d) (linUz d) d d d x y z i j k = 0 := by
  unfold dUperpMag
  rw [delta3_linUx, delta3_linUy, delta3_linUz, dUpll_lin hr]
  have e1 : rdisp d d d x y z * ((x : ℝ) * d) / rdisp d d d x y z =
      (x : ℝ) * d := by
    rw [mul_comm, mul_div_assoc, div_self hr, mul_one]
  have e2 : rdisp d d d x y z * ((y : ℝ) * d) / rdisp d d d x y z =
      (y : ℝ) * d := by
    rw [mul_comm, mul_div_assoc, div_self hr, mul_one]
  have e3 : rdisp d d d x y z * ((z : ℝ) * d) / rdisp d d d x y z =
      (z : ℝ) * d := by
    rw [mul_comm, mul_div_assoc, div_self hr, mul_one]
  rw [e1, e2, e3]
  simp

theorem rdisp_pos {d : ℝ} (hd : 0 < d) {x y z : ℕ}
    (hne : ¬(x = 0 ∧ y = 0 ∧ z = 0)) :
    0 < rdisp d d d ↑x ↑y ↑z := by
  unfold rdisp
  refine Real.sqrt_pos.2 ?_
  have hxyz : x ≠ 0 ∨ y ≠ 0 ∨ z ≠ 0 := by tauto
  have s1 := sq_nonneg ((((x : ℕ) : ℤ) : ℝ) * d)
  have s2 := sq_nonneg ((((y : ℕ) : ℤ) : ℝ) * d)
  have s3 := sq_nonneg ((((z : ℕ) : ℤ) : ℝ) * d)
  rcases hxyz with hne0 | hne0 | hne0
  · have hx' : (0 : ℝ) < (((x : ℕ) : ℤ) : ℝ) := by
      exact_mod_cast Nat.pos_of_ne_zero hne0
    have := pow_pos (mul_pos hx' hd) 2
    linarith
  · have hy' : (0 : ℝ) < (((y : ℕ) : ℤ) : ℝ) := by
      exact_mod_cast Nat.pos_of_ne_zero hne0
    have := pow_pos (mul_pos hy' hd) 2
    linarith
  · have hz' : (0 : ℝ) < (((z : ℕ) : ℤ) : ℝ) := by
      exact_mod_cast Nat.pos_of_ne_zero hne0
    have := pow_pos (mul_pos hz' hd) 2
    linarith

theorem ov_32 {x y z : ℕ} :
    (32 - x) * (32 - y) * (32 - z) < 2 ^ 31 := by
  have h1 : 32 - x ≤ 32 := by omega
  have h2 : 32 - y ≤ 32 := by omega
  have h3 : 32 - z ≤ 32 := by omega
  have := Nat.mul_le_mul (Nat.mul_le_mul h1 h2) h3
  exact lt_of_le_of_lt this (by norm_num)

/-- Closed form of `Spll` on the linear field over the 32³ grid. -/
theorem Spll3D_lin32 {d : ℝ} {x y z : ℕ}
    (hx : x < 16) (hy : y < 16) (hz : z < 16)
    (hr : rdisp d d d ↑x ↑y ↑z ≠ 0) (q : ℤ) :
    Spll3D (linUx d) (linUy d) (linUz d)
        ((32 : ℕ) : ℤ) ((32 : ℕ) : ℤ) ((32 : ℕ) : ℤ) d d d q ↑x ↑y ↑z =
      rdisp d d d ↑x ↑y ↑z ^ q := by
  have hcount := @count32_cast_eq 32 32 32 x y z
    (by omega) (by omega) (by omega) ov_32
  unfold Spll3D
  rw [hcount]
  have ea : (((32 : ℕ) : ℤ) - (x : ℕ)).toNat = 32 - x := by omega
  have eb : (((32 : ℕ) : ℤ) - (y : ℕ)).toNat = 32 - y := by omega
  have ec : (((32 : ℕ) : ℤ) - (z : ℕ)).toNat = 32 - z := by omega
  rw [ea, eb, ec]
  simp only [dUpll_lin hr]
  simp only [Finset.sum_const, Finset.card_range, nsmul_eq_mul]
  have hDiv : ((((32 - x) * (32 - y) * (32 - z) : ℕ) : ℤ) : ℝ) =
      ((32 - x : ℕ) : ℝ) * ((32 - y : ℕ) : ℝ) * ((32 - z : ℕ) : ℝ) := by
    push_cast
    ring
  rw [hDiv]
  have hABC : ((32 - x : ℕ) : ℝ) * ((32 - y : ℕ) : ℝ) * ((32 - z : ℕ) : ℝ) ≠ 0 := by
    refine mul_ne_zero (mul_ne_zero ?_ ?_) ?_ <;>
      exact Nat.cast_ne_zero.2 (by omega)
  have hnum : ((32 - x : ℕ) : ℝ) * (((32 - y : ℕ) : ℝ) *
      (((32 - z : ℕ) : ℝ) * rdisp d d d ↑x ↑y ↑z ^ q)) =
      (((32 - x : ℕ) : ℝ) * ((32 - y : ℕ) : ℝ) * ((32 - z : ℕ) : ℝ)) *
        rdisp d d d ↑x ↑y ↑z ^ q := by
    ring
  rw [hnum, mul_div_cancel_left₀ _ hABC]

/-- Closed form of `Sperp` on the linear field over the 32³ grid. -/
theorem Sperp3D_lin32 {d : ℝ} {x y z : ℕ}
    (hr : rdisp d d d ↑x ↑y ↑z ≠ 0) {q : ℤ} (hq : q ≠ 0) :
    Sperp3D (linUx d) (linUy d) (linUz d)
        ((32 : ℕ) : ℤ) ((32 : ℕ) : ℤ) ((32 : ℕ) : ℤ) d d d q ↑x ↑y ↑z = 0 := by
  unfold Sperp3D
  simp only [dUperpMag_lin hr]
  rw [zero_zpow q hq]
  simp

/-- C3: with the internally generated linear 3D velocity field
`Ux=i·dx, Uy=j·dy, Uz=k·dz` on the 32³ grid with `L = 1` (so every
spacing is `1/31`), `q1 = 1`, `q2 = 4`, both components requested, and
any process decomposition satisfying the pre-run constraints: the
final longitudinal tensor holds `r^(1+p)` (with `r = ‖l‖₂` and
`1+p ∈ [q1,q2]` the order) at every non-origin half-domain
displacement, and the final transverse tensor holds `0` at every
half-domain displacement — non-origin slots by computation, the
origin row by the origin cleanup. -/
theorem C3_linear_field_test {P px : ℕ} (h : DecompOK 32 32 P px)
    {x y z p : ℕ} (hx : x < 16) (hy : y < 16) (hz : z < 16) (hp : p < 4)
    (hne : ¬(x = 0 ∧ y = 0 ∧ z = 0)) :
    (SF_Grid_pll_final (linUx (spacing 32 1)) (linUy (spacing 32 1))
        (linUz (spacing 32 1)) 32 32 32 P px
        (spacing 32 1) (spacing 32 1) (spacing 32 1) 1 4
        ((x : ℤ), (y : ℤ), z, p) =
      some (rdisp (spacing 32 1) (spacing 32 1) (spacing 32 1)
        ↑x ↑y ↑z ^ (1 + (p : ℤ)))) ∧
    (SF_Grid_perp_final (linUx (spacing 32 1)) (linUy (spacing 32 1))
        (linUz (spacing 32 1)) 32 32 32 P px
        (spacing 32 1) (spacing 32 1) (spacing 32 1) 1 4
        ((x : ℤ), (y : ℤ), z, p) = some 0) ∧
    (∀ p' : ℕ, p' < 4 →
      SF_Grid_perp_final (linUx (spacing 32 1)) (linUy (spacing 32 1))
          (linUz (spacing 32 1)) 32 32 32 P px
          (spacing 32 1) (spacing 32 1) (spacing 32 1) 1 4
          ((0 : ℤ), (0 : ℤ), 0, p') = some 0) := by
  have hdpos : 0 < spacing 32 1 := by
    unfold spacing
    norm_num
  have hr : rdisp (spacing 32 1) (spacing 32 1) (spacing 32 1) ↑x ↑y ↑z ≠ 0 :=
    ne_of_gt (rdisp_pos hdpos hne)
  have hne' : ¬((x : ℤ) = 0 ∧ (y : ℤ) = 0 ∧ z = 0) := by
    rintro ⟨h1, h2, h3⟩
    exact hne ⟨by exact_mod_cast h1, by exact_mod_cast h2, h3⟩
  have hcov : ∃ i < P, ∃ ix < 32 * 32 / (4 * P),
      pairAt 32 32 P px i ix = ((x : ℤ), (y : ℤ)) := by
    obtain ⟨i, hi, ix, hix, hpr⟩ :=
      pair_cover h (a := x) (b := y) (by omega) (by omega)
    exact ⟨i, hi, ix, by rw [cpp_eq_32 h]; exact hix, hpr⟩
  have hz' : z < 32 / 2 := by omega
  have hM : ((4 : ℤ) - 1 + 1).toNat = 4 := by decide
  have hp' : p < ((4 : ℤ) - 1 + 1).toNat := by omega
  refine ⟨?_, ?_, ?_⟩
  · have hfin := lastWrite_gather3D
      (fun a b z' p' =>
        Spll3D (linUx (spacing 32 1)) (linUy (spacing 32 1))
          (linUz (spacing 32 1)) ((32 : ℕ) : ℤ) ((32 : ℕ) : ℤ) ((32 : ℕ) : ℤ)
          (spacing 32 1) (spacing 32 1) (spacing 32 1) (1 + (p' : ℤ)) a b ↑z')
      32 32 32 P px ((4 : ℤ) - 1 + 1).toNat hne' hcov hz' hp'
    unfold SF_Grid_pll_final SFunc3D_pll_writes
    rw [hfin]
    exact congrArg some (Spll3D_lin32 hx hy hz hr (1 + (p : ℤ)))
  · have hfin := lastWrite_gather3D
      (fun a b z' p' =>
        Sperp3D (linUx (spacing 32 1)) (linUy (spacing 32 1))
          (linUz (spacing 32 1)) ((32 : ℕ) : ℤ) ((32 : ℕ) : ℤ) ((32 : ℕ) : ℤ)
          (spacing 32 1) (spacing 32 1) (spacing 32 1) (1 + (p' : ℤ)) a b ↑z')
      32 32 32 P px ((4 : ℤ) - 1 + 1).toNat hne' hcov hz' hp'
    unfold SF_Grid_perp_final SFunc3D_perp_writes
    rw [hfin]
    exact congrArg some (Sperp3D_lin32 hr (by omega : (1 : ℤ) + (p : ℕ) ≠ 0))
  · intro p' hp4
    unfold SF_Grid_perp_final SFunc3D_perp_writes
    exact lastWrite_append_right
      (lastWrite_cleanup (fun q => ((0 : ℤ), (0 : ℤ), 0, q)) (by omega))

theorem C3_witness :
    (DecompOK 32 32 1 1 ∧ (1 : ℕ) < 16 ∧ (0 : ℕ) < 4 ∧
      ¬((1 : ℕ) = 0 ∧ (0 : ℕ) = 0 ∧ (0 : ℕ) = 0)) ∧
      ((SF_Grid_pll_final (linUx (spacing 32 1)) (linUy (spacing 32 1))
          (linUz (spacing 32 1)) 32 32 32 1 1
          (spacing 32 1) (spacing 32 1) (spacing 32 1) 1 4
          (((1 : ℕ) : ℤ), ((0 : ℕ) : ℤ), 0, 0) =
        some (rdisp (spacing 32 1) (spacing 32 1) (spacing 32 1)
          ((1 : ℕ) : ℤ) ((0 : ℕ) : ℤ) ((0 : ℕ) : ℤ) ^ (1 + ((0 : ℕ) : ℤ)))) ∧
      (SF_Grid_perp_final (linUx (spacing 32 1)) (linUy (spacing 32 1))
          (linUz (spacing 32 1)) 32 32 32 1 1
          (spacing 32 1) (spacing 32 1) (spacing 32 1) 1 4
          (((1 : ℕ) : ℤ), ((0 : ℕ) : ℤ), 0, 0) = some 0) ∧
      (∀ p' : ℕ, p' < 4 →
        SF_Grid_perp_final (linUx (spacing 32 1)) (linUy (spacing 32 1))
            (linUz (spacing 32 1)) 32 32 32 1 1
            (spacing 32 1) (spacing 32 1) (spacing 32 1) 1 4
            ((0 : ℤ), (0 : ℤ), 0, p') = some 0)) :=
  have h : DecompOK 32 32 1 1 :=
    ⟨by decide, by decide, by decide, by decide, by decide,
      ⟨4, by decide⟩, ⟨4, by decide⟩⟩
  ⟨⟨h, by decide, by decide, by decide⟩,
    C3_linear_field_test h (by decide) (by decide) (by decide) (by decide)
      (by decide)⟩

end FastSF
